import Mathlib

/-!
Verification development for the rust-rush tower-defense simulation core.

The Rust sources (src/game-engine/src/main.rs and pathfinding.rs) are shallowly
embedded below.  Modelling conventions:

* machine integers (`i32`, `u32`, `usize`) are modelled by `Int` / `Nat`; the
  values reached by the game logic stay far from the overflow boundaries;
* `f32` coordinates, cooldowns and lifetimes are modelled by `ℚ`; comparisons
  of Euclidean distances against non-negative thresholds are modelled exactly
  by comparing squares, which coincides with the source's `sqrt`-then-compare
  over exact arithmetic; the only places where an actual square root value is
  needed (sub-step movement along a normalized direction vector) take it from
  an unspecified parameter `RealOps`, and no theorem below depends on it;
* Rust `HashMap`s are modelled by association lists (`alookup` takes the most
  recent binding, like `HashMap::insert` overwriting); iteration order of a
  Rust `HashMap` is unspecified, the list order is one concrete choice and the
  proved statements do not depend on it;
* `BinaryHeap` is modelled by a list with `popMax` extracting a maximal
  element w.r.t. the source's `Ord` instance (Rust leaves unspecified which of
  several `cmp`-equal elements is returned; the proofs only use maximality);
* the A* search loop, a non-structural loop in the source, is embedded with an
  explicit fuel argument; the fuel chosen in `find_path` is proved sufficient
  (the completeness theorems below return `some` without exhausting it).
-/

set_option maxHeartbeats 1000000

namespace RustRush

/-- Integer grid coordinate, mirroring `Position` in main.rs. -/
structure Position where
  x : Int
  y : Int
deriving DecidableEq, Repr

namespace Position

/-- `Position::new`. -/
def new (x y : Int) : Position := ⟨x, y⟩

/-- `Position::manhattan_distance`: `(x1-x2).abs() + (y1-y2).abs()`. -/
def manhattan_distance (a b : Position) : Int :=
  ((a.x - b.x).natAbs : Int) + ((a.y - b.y).natAbs : Int)

/-- `Position::neighbors`, in source order: right, left, down, up. -/
def neighbors (p : Position) : List Position :=
  [⟨p.x + 1, p.y⟩, ⟨p.x - 1, p.y⟩, ⟨p.x, p.y + 1⟩, ⟨p.x, p.y - 1⟩]

/-- `Position::to_world` (CELL_SIZE = 40). -/
def to_world (p : Position) : ℚ × ℚ := ((p.x : ℚ) * 40, (p.y : ℚ) * 40)

/-- `Position::from_world` (floor of world coordinate / CELL_SIZE). -/
def from_world (x y : ℚ) : Position := ⟨⌊x / 40⌋, ⌊y / 40⌋⟩

end Position

/-- Association-list lookup; the first (most recent) binding wins, matching
`HashMap::insert` overwriting previous bindings. -/
def alookup {κ α : Type} [DecidableEq κ] : List (κ × α) → κ → Option α
  | [], _ => none
  | e :: r, k => if e.1 = k then some e.2 else alookup r k

@[simp] theorem alookup_nil {κ α : Type} [DecidableEq κ] (k : κ) :
    alookup ([] : List (κ × α)) k = none := rfl

theorem alookup_cons {κ α : Type} [DecidableEq κ] (e : κ × α) (r : List (κ × α)) (k : κ) :
    alookup (e :: r) k = if e.1 = k then some e.2 else alookup r k := rfl

@[simp] theorem alookup_cons_self {κ α : Type} [DecidableEq κ] (k : κ) (v : α)
    (r : List (κ × α)) : alookup ((k, v) :: r) k = some v := by
  simp [alookup_cons]

theorem alookup_cons_ne {κ α : Type} [DecidableEq κ] {k k' : κ} (v : α)
    (r : List (κ × α)) (h : k' ≠ k) : alookup ((k', v) :: r) k = alookup r k := by
  simp [alookup_cons, h]

/-- A lookup that succeeds exhibits a key of the list. -/
theorem alookup_isSome_mem_keys {κ α : Type} [DecidableEq κ] :
    ∀ (m : List (κ × α)) (k : κ), (alookup m k).isSome → k ∈ m.map Prod.fst
  | [], _, h => by simp [alookup] at h
  | e :: r, k, h => by
    by_cases hk : e.1 = k
    · simp [hk]
    · rw [alookup_cons, if_neg hk] at h
      simpa using Or.inr (alookup_isSome_mem_keys r k h)

/-- Binary walkability map over cell coordinates, mirroring `Grid` in main.rs.
The `HashMap<Position, bool>` becomes an association list. -/
structure Grid where
  width : Int
  height : Int
  walkable : List (Position × Bool)
deriving DecidableEq, Repr

namespace Grid

/-- `Grid::new`. -/
def new (width height : Int) : Grid := ⟨width, height, []⟩

/-- `Grid::is_walkable`: out of bounds is never walkable, otherwise the map is
consulted with default `true`. -/
def is_walkable (g : Grid) (p : Position) : Bool :=
  if p.x < 0 ∨ p.x ≥ g.width ∨ p.y < 0 ∨ p.y ≥ g.height then false
  else (alookup g.walkable p).getD true

/-- `Grid::set_walkable`: an unconditional insert (the source performs no
bounds check). -/
def set_walkable (g : Grid) (p : Position) (b : Bool) : Grid :=
  { g with walkable := (p, b) :: g.walkable }

/-- In-bounds predicate (the complement of the early-return test in
`is_walkable`). -/
def inBounds (g : Grid) (p : Position) : Prop :=
  0 ≤ p.x ∧ p.x < g.width ∧ 0 ≤ p.y ∧ p.y < g.height

instance (g : Grid) (p : Position) : Decidable (g.inBounds p) := by
  unfold inBounds; infer_instance

theorem is_walkable_eq_true_of_inBounds {g : Grid} {p : Position}
    (h : g.inBounds p) : g.is_walkable p = ((alookup g.walkable p).getD true) := by
  obtain ⟨h1, h2, h3, h4⟩ := h
  unfold is_walkable
  rw [if_neg]
  omega

theorem inBounds_of_is_walkable {g : Grid} {p : Position}
    (h : g.is_walkable p = true) : g.inBounds p := by
  unfold is_walkable at h
  by_cases hb : p.x < 0 ∨ p.x ≥ g.width ∨ p.y < 0 ∨ p.y ≥ g.height
  · rw [if_pos hb] at h; exact absurd h (by simp)
  · unfold inBounds; omega

theorem not_inBounds_is_walkable {g : Grid} {p : Position}
    (h : ¬ g.inBounds p) : g.is_walkable p = false := by
  unfold inBounds at h
  unfold is_walkable
  rw [if_pos]
  omega

theorem is_walkable_set {g : Grid} (p q : Position) (b : Bool) :
    (g.set_walkable p b).is_walkable q =
      if q = p then (if g.inBounds q then b else false) else g.is_walkable q := by
  by_cases hq : q = p
  · subst hq
    rw [if_pos rfl]
    by_cases hb : g.inBounds q
    · rw [if_pos hb]
      have hb' : (g.set_walkable q b).inBounds q := hb
      rw [is_walkable_eq_true_of_inBounds hb']
      show (alookup ((q, b) :: g.walkable) q).getD true = b
      simp
    · rw [if_neg hb]
      exact not_inBounds_is_walkable (p := q) (g := g.set_walkable q b) hb
  · rw [if_neg hq]
    show (if q.x < 0 ∨ q.x ≥ g.width ∨ q.y < 0 ∨ q.y ≥ g.height then false
          else (alookup ((p, b) :: g.walkable) q).getD true) = g.is_walkable q
    rw [alookup_cons_ne _ _ (fun h => hq h.symm)]
    rfl

end Grid

/-! ### The A* pathfinder (pathfinding.rs) -/

/-- `Node` used in A* pathfinding. -/
structure Node where
  position : Position
  g_cost : Int
  h_cost : Int
  parent : Option Position
deriving DecidableEq, Repr

namespace Node

/-- `Node::new`. -/
def new (position : Position) (g_cost h_cost : Int) (parent : Option Position) : Node :=
  ⟨position, g_cost, h_cost, parent⟩

/-- `Node::f_cost`. -/
def f_cost (n : Node) : Int := n.g_cost + n.h_cost

end Node

/-- The source's `impl Ord for Node`:
`other.f_cost().cmp(&self.f_cost()).then_with(|| other.h_cost.cmp(&self.h_cost))`.
Both comparisons are reversed, so a node ranks higher (is popped earlier from
the max-heap) when its `f_cost` is smaller, ties going to the smaller
`h_cost`. -/
def nodeCmp (a b : Node) : Ordering :=
  (compare b.f_cost a.f_cost).then (compare b.h_cost a.h_cost)

theorem then_eq_gt_iff (o1 o2 : Ordering) :
    o1.then o2 = .gt ↔ (o1 = .gt ∨ (o1 = .eq ∧ o2 = .gt)) := by
  cases o1 <;> cases o2 <;> decide

theorem then_eq_lt_iff (o1 o2 : Ordering) :
    o1.then o2 = .lt ↔ (o1 = .lt ∨ (o1 = .eq ∧ o2 = .lt)) := by
  cases o1 <;> cases o2 <;> decide

theorem nodeCmp_gt_iff (a b : Node) :
    nodeCmp a b = .gt ↔
      (a.f_cost < b.f_cost ∨ (a.f_cost = b.f_cost ∧ a.h_cost < b.h_cost)) := by
  unfold nodeCmp
  rw [then_eq_gt_iff, compare_gt_iff_gt, compare_eq_iff_eq, compare_gt_iff_gt]
  omega

theorem nodeCmp_lt_iff (a b : Node) :
    nodeCmp a b = .lt ↔
      (b.f_cost < a.f_cost ∨ (a.f_cost = b.f_cost ∧ b.h_cost < a.h_cost)) := by
  unfold nodeCmp
  rw [then_eq_lt_iff, compare_lt_iff_lt, compare_eq_iff_eq, compare_lt_iff_lt]
  omega

/-- Model of `BinaryHeap::pop`: extract a maximal element w.r.t. `nodeCmp`
(the first maximal one in the list; Rust does not specify which of several
equal elements is popped, and no proof below depends on the choice). -/
def popMax : List Node → Option (Node × List Node)
  | [] => none
  | n :: rest =>
    match popMax rest with
    | none => some (n, [])
    | some (m, rest') =>
      if nodeCmp n m = .lt then some (m, n :: rest') else some (n, rest)

@[simp] theorem popMax_nil : popMax [] = none := rfl

theorem popMax_eq_none_iff (l : List Node) : popMax l = none ↔ l = [] := by
  cases l with
  | nil => simp
  | cons n rest =>
    simp only [popMax]
    cases h : popMax rest with
    | none => simp
    | some p =>
      obtain ⟨m, rest'⟩ := p
      by_cases hc : nodeCmp n m = .lt <;> simp [hc]

theorem popMax_mem : ∀ {l : List Node} {m : Node} {r : List Node},
    popMax l = some (m, r) → m ∈ l
  | [], _, _, h => by simp at h
  | n :: rest, m, r, h => by
    cases hp : popMax rest with
    | none => simp only [popMax, hp] at h; simp at h; simp [h.1]
    | some p =>
      obtain ⟨m', rest'⟩ := p
      simp only [popMax, hp] at h
      by_cases hc : nodeCmp n m' = .lt
      · rw [if_pos hc] at h
        simp at h
        exact List.mem_cons_of_mem _ (by rw [← h.1]; exact popMax_mem hp)
      · rw [if_neg hc] at h
        simp at h
        simp [h.1]

theorem popMax_cover : ∀ {l : List Node} {m : Node} {r : List Node},
    popMax l = some (m, r) → ∀ x ∈ l, x = m ∨ x ∈ r
  | [], _, _, h => by simp at h
  | n :: rest, m, r, h => by
    cases hp : popMax rest with
    | none =>
      simp only [popMax, hp] at h; simp at h
      obtain ⟨hm, hr⟩ := h
      have : rest = [] := (popMax_eq_none_iff rest).1 hp
      subst this
      intro x hx
      simp at hx
      exact Or.inl (hx.trans hm)
    | some p =>
      obtain ⟨m', rest'⟩ := p
      simp only [popMax, hp] at h
      by_cases hc : nodeCmp n m' = .lt
      · rw [if_pos hc] at h
        simp at h
        obtain ⟨hm, hr⟩ := h
        intro x hx
        rcases List.mem_cons.1 hx with hx | hx
        · right; rw [← hr]; simp [hx]
        · rcases popMax_cover hp x hx with hx' | hx'
          · left; rw [hx', hm]
          · right; rw [← hr]; simp [hx']
      · rw [if_neg hc] at h
        simp at h
        obtain ⟨hm, hr⟩ := h
        intro x hx
        rcases List.mem_cons.1 hx with hx | hx
        · left; rw [hx, hm]
        · right; rw [← hr]; exact hx

theorem popMax_sublist_mem : ∀ {l : List Node} {m : Node} {r : List Node},
    popMax l = some (m, r) → ∀ x ∈ r, x ∈ l
  | [], _, _, h => by simp at h
  | n :: rest, m, r, h => by
    cases hp : popMax rest with
    | none =>
      simp only [popMax, hp] at h; simp at h
      obtain ⟨h1, h2⟩ := h
      subst h2
      intro x hx
      simp at hx
    | some p =>
      obtain ⟨m', rest'⟩ := p
      simp only [popMax, hp] at h
      by_cases hc : nodeCmp n m' = .lt
      · rw [if_pos hc] at h
        simp at h
        obtain ⟨hm, hr⟩ := h
        intro x hx
        rw [← hr] at hx
        rcases List.mem_cons.1 hx with hx | hx
        · simp [hx]
        · exact List.mem_cons_of_mem _ (popMax_sublist_mem hp x hx)
      · rw [if_neg hc] at h
        simp at h
        obtain ⟨hm, hr⟩ := h
        intro x hx
        rw [← hr] at hx
        exact List.mem_cons_of_mem _ hx

theorem popMax_length : ∀ {l : List Node} {m : Node} {r : List Node},
    popMax l = some (m, r) → r.length + 1 = l.length
  | [], _, _, h => by simp at h
  | n :: rest, m, r, h => by
    cases hp : popMax rest with
    | none =>
      simp only [popMax, hp] at h; simp at h
      have : rest = [] := (popMax_eq_none_iff rest).1 hp
      subst this
      rw [← h.2]
      rfl
    | some p =>
      obtain ⟨m', rest'⟩ := p
      simp only [popMax, hp] at h
      have hlen := popMax_length hp
      by_cases hc : nodeCmp n m' = .lt
      · rw [if_pos hc] at h
        simp at h
        rw [← h.2]
        simp [← hlen]
      · rw [if_neg hc] at h
        simp at h
        rw [← h.2]
        rfl

/-- `a` does not rank strictly above `b` in the heap order. -/
theorem notGT_iff (a b : Node) :
    nodeCmp a b ≠ .gt ↔
      (b.f_cost ≤ a.f_cost ∧ (a.f_cost = b.f_cost → b.h_cost ≤ a.h_cost)) := by
  rw [Ne, nodeCmp_gt_iff]
  constructor
  · intro h
    constructor
    · by_contra hc; exact h (Or.inl (by omega))
    · intro he
      by_contra hc
      exact h (Or.inr ⟨he, by omega⟩)
  · rintro ⟨h1, h2⟩ (h | ⟨he, hh⟩)
    · omega
    · have := h2 he; omega

theorem popMax_max : ∀ {l : List Node} {m : Node} {r : List Node},
    popMax l = some (m, r) → ∀ x ∈ l, nodeCmp x m ≠ .gt
  | [], _, _, h => by simp at h
  | n :: rest, m, r, h => by
    cases hp : popMax rest with
    | none =>
      simp only [popMax, hp] at h; simp at h
      have : rest = [] := (popMax_eq_none_iff rest).1 hp
      subst this
      intro x hx
      simp at hx
      subst hx
      rw [← h.1, notGT_iff]
      omega
    | some p =>
      obtain ⟨m', rest'⟩ := p
      simp only [popMax, hp] at h
      have hmax := popMax_max hp
      by_cases hc : nodeCmp n m' = .lt
      · rw [if_pos hc] at h
        simp at h
        obtain ⟨hm, -⟩ := h
        subst hm
        intro x hx
        rcases List.mem_cons.1 hx with hx | hx
        · subst hx
          rw [nodeCmp_lt_iff] at hc
          rw [notGT_iff]
          omega
        · exact hmax x hx
      · rw [if_neg hc] at h
        simp at h
        obtain ⟨hm, -⟩ := h
        subst hm
        intro x hx
        have hc' : ¬ (m'.f_cost < n.f_cost ∨ (n.f_cost = m'.f_cost ∧ m'.h_cost < n.h_cost)) := by
          rw [← nodeCmp_lt_iff]; exact hc
        push_neg at hc'
        rcases List.mem_cons.1 hx with hx | hx
        · subst hx
          rw [notGT_iff]
          omega
        · have h1 := hmax x hx
          rw [notGT_iff] at h1 ⊢
          omega

/-- The Manhattan-distance heuristic of pathfinding.rs. -/
def heuristic (pos goal : Position) : Int := pos.manhattan_distance goal

/-- The in-bounds cells of a grid, as a finite set (used only to size the
search fuel and the termination measure; it is not part of the source). -/
def cells (g : Grid) : Finset Position :=
  ((Finset.Icc 0 (g.width - 1)) ×ˢ (Finset.Icc 0 (g.height - 1))).image
    (fun q : Int × Int => ⟨q.1, q.2⟩)

theorem mem_cells {g : Grid} {p : Position} : p ∈ cells g ↔ g.inBounds p := by
  unfold cells Grid.inBounds
  simp only [Finset.mem_image, Finset.mem_product, Finset.mem_Icc, Prod.exists]
  constructor
  · rintro ⟨a, b, ⟨⟨h1, h2⟩, h3, h4⟩, rfl⟩
    exact ⟨h1, show a < g.width by omega, h3, show b < g.height by omega⟩
  · rintro ⟨h1, h2, h3, h4⟩
    exact ⟨p.x, p.y, ⟨⟨h1, by omega⟩, h3, by omega⟩, rfl⟩

/-- Map from position to recorded predecessor (`came_from`). -/
abbrev FMap := List (Position × Position)

/-- Map from position to best recorded g-score (`g_scores`). -/
abbrev SMap := List (Position × Int)

/-- State threaded through the neighbor-expansion loop of `find_path`:
the open heap, `came_from` and `g_scores`. -/
structure OpenState where
  heap : List Node
  fmap : FMap
  smap : SMap

/-- One iteration of the `for neighbor_pos in current_pos.neighbors()` loop in
`find_path`. -/
def relaxNbr (g : Grid) (goal : Position) (cur : Node) (C : Finset Position)
    (st : OpenState) (q : Position) : OpenState :=
  if g.is_walkable q = true ∧ q ∉ C then
    let tg := cur.g_cost + 1
    let better :=
      match alookup st.smap q with
      | some eg => decide (tg < eg)
      | none => true
    if better then
      ⟨Node.new q tg (heuristic q goal) (some cur.position) :: st.heap,
       (q, cur.position) :: st.fmap, (q, tg) :: st.smap⟩
    else st
  else st

/-- The whole neighbor-expansion loop. -/
def expand (g : Grid) (goal : Position) (cur : Node) (C : Finset Position)
    (st : OpenState) (ns : List Position) : OpenState :=
  ns.foldl (relaxNbr g goal cur C) st

/-- `reconstruct_path`'s predecessor walk (`while let Some(&parent) = ...`),
with fuel; the fuel passed by `reconstruct_path` is proved sufficient below. -/
def walkParents : Nat → FMap → Position → List Position
  | 0, _, c => [c]
  | fuel + 1, F, c =>
    match alookup F c with
    | none => [c]
    | some p => c :: walkParents fuel F p

/-- `reconstruct_path`: walk predecessor links from the goal, then reverse. -/
def reconstruct_path (F : FMap) (current : Position) : List Position :=
  (walkParents (F.length + 1) F current).reverse

/-- The `while let Some(current) = open_set.pop()` loop of `find_path`. -/
def loopA (g : Grid) (goal : Position) :
    Nat → List Node → Finset Position → FMap → SMap → Option (List Position)
  | 0, _, _, _, _ => none
  | fuel + 1, H, C, F, S =>
    match popMax H with
    | none => none
    | some (cur, H') =>
      if cur.position = goal then some (reconstruct_path F cur.position)
      else if cur.position ∈ C then loopA g goal fuel H' C F S
      else
        let C' := insert cur.position C
        let st := expand g goal cur C' ⟨H', F, S⟩ cur.position.neighbors
        loopA g goal fuel st.heap C' st.fmap st.smap

/-- `find_path` of pathfinding.rs: A* with the Manhattan heuristic.  The fuel
`1 + 4 * (cells g).card` dominates the total number of heap pops (proved in
the completeness results below, which return `some` before exhausting it). -/
def find_path (g : Grid) (start goal : Position) : Option (List Position) :=
  if g.is_walkable start = true ∧ g.is_walkable goal = true then
    loopA g goal (1 + 4 * (cells g).card)
      [Node.new start 0 (heuristic start goal) none] ∅ [] [(start, 0)]
  else none

/-- Interior turn detection of `find_waypoints`: keeps points where the
incoming direction differs from the outgoing one. -/
def turnPoints : Position → List Position → List Position
  | prev, cur :: next :: rest =>
    (if (cur.x - prev.x, cur.y - prev.y) ≠ (next.x - cur.x, next.y - cur.y)
     then [cur] else []) ++ turnPoints cur (next :: rest)
  | _, _ => []

/-- `find_waypoints`: run `find_path` and collapse collinear runs. -/
def find_waypoints (g : Grid) (start goal : Position) : Option (List Position) :=
  (find_path g start goal).map fun full =>
    if full.length ≤ 2 then full
    else
      match full with
      | [] => []
      | a :: rest => a :: (turnPoints a rest ++ [rest.getLastD a])

/-! ### Basic geometry lemmas -/

namespace Position

theorem manhattan_nonneg (a b : Position) : 0 ≤ a.manhattan_distance b := by
  unfold manhattan_distance; omega

theorem manhattan_self (a : Position) : a.manhattan_distance a = 0 := by
  unfold manhattan_distance; omega

theorem manhattan_eq_zero_iff {a b : Position} : a.manhattan_distance b = 0 ↔ a = b := by
  obtain ⟨ax, ay⟩ := a
  obtain ⟨bx, by'⟩ := b
  unfold manhattan_distance
  simp only [Position.mk.injEq]
  omega

theorem manhattan_triangle (a b c : Position) :
    a.manhattan_distance c ≤ a.manhattan_distance b + b.manhattan_distance c := by
  unfold manhattan_distance; omega

theorem mem_neighbors_iff {p q : Position} :
    q ∈ p.neighbors ↔
      ((q.x = p.x + 1 ∧ q.y = p.y) ∨ (q.x = p.x - 1 ∧ q.y = p.y) ∨
       (q.x = p.x ∧ q.y = p.y + 1) ∨ (q.x = p.x ∧ q.y = p.y - 1)) := by
  obtain ⟨qx, qy⟩ := q
  obtain ⟨px, py⟩ := p
  simp [neighbors, Position.mk.injEq]

theorem mem_neighbors_symm {p q : Position} (h : q ∈ p.neighbors) : p ∈ q.neighbors := by
  rw [mem_neighbors_iff] at h ⊢
  omega

theorem manhattan_of_mem_neighbors {p q : Position} (h : q ∈ p.neighbors) :
    p.manhattan_distance q = 1 := by
  rw [mem_neighbors_iff] at h
  unfold manhattan_distance
  omega

theorem ne_of_mem_neighbors {p q : Position} (h : q ∈ p.neighbors) : q ≠ p := by
  rw [mem_neighbors_iff] at h
  intro he
  subst he
  omega

end Position

/-- The 4-connectedness relation of the specification: two cells differ by
exactly 1 in exactly one coordinate. -/
def adjacent (a b : Position) : Prop :=
  (a.x = b.x ∧ (a.y - b.y).natAbs = 1) ∨ (a.y = b.y ∧ (a.x - b.x).natAbs = 1)

instance (a b : Position) : Decidable (adjacent a b) := by
  unfold adjacent; infer_instance

theorem adjacent_iff_mem_neighbors {a b : Position} : adjacent a b ↔ b ∈ a.neighbors := by
  rw [Position.mem_neighbors_iff]
  unfold adjacent
  omega

/-- A walkable 4-connected path from `s` to `t` on grid `g`. -/
def IsPath (g : Grid) (s t : Position) (l : List Position) : Prop :=
  l ≠ [] ∧ l.head? = some s ∧ l.getLast? = some t ∧
    (∀ p ∈ l, g.is_walkable p = true) ∧ l.Chain' (fun a b => b ∈ a.neighbors)

/-! ### Claim C1: tie-breaking in the priority queue -/

/-- C1, counterexample: two queued nodes with equal `f_cost = 3`; the claim
says the one with the larger heuristic (`h_cost = 3`) is popped first, but the
heap pops the one with the smaller heuristic (`h_cost = 1`). -/
theorem C1_counterexample :
    Node.f_cost ⟨⟨0, 0⟩, 0, 3, none⟩ = Node.f_cost ⟨⟨0, 0⟩, 2, 1, none⟩ ∧
    (⟨⟨0, 0⟩, 2, 1, none⟩ : Node).h_cost < (⟨⟨0, 0⟩, 0, 3, none⟩ : Node).h_cost ∧
    popMax [⟨⟨0, 0⟩, 0, 3, none⟩, ⟨⟨0, 0⟩, 2, 1, none⟩] =
      some (⟨⟨0, 0⟩, 2, 1, none⟩, [⟨⟨0, 0⟩, 0, 3, none⟩]) := by
  decide

/-- C1, amended: when two queued nodes have equal `f_cost = g + h`, the node
with the *smaller* heuristic `h_cost` ranks strictly higher in the heap order
and is therefore popped (expanded) first; and every pop of the search's
priority queue returns a node maximal in that order. -/
theorem C1_tie_breaks_to_smaller_h :
    (∀ a b : Node, a.f_cost = b.f_cost → a.h_cost < b.h_cost → nodeCmp a b = .gt) ∧
    (∀ (l : List Node) (m : Node) (r : List Node), popMax l = some (m, r) →
       ∀ x ∈ l, nodeCmp x m ≠ .gt) := by
  constructor
  · intro a b hf hh
    rw [nodeCmp_gt_iff]
    exact Or.inr ⟨hf, hh⟩
  · intro l m r h
    exact popMax_max h

/-- Witness for C1's amended theorem at concrete nodes. -/
theorem C1_tie_breaks_to_smaller_h_witness :
    nodeCmp ⟨⟨0, 0⟩, 2, 1, none⟩ ⟨⟨0, 0⟩, 0, 3, none⟩ = .gt ∧
    (∀ x ∈ [(⟨⟨0, 0⟩, 0, 3, none⟩ : Node), ⟨⟨0, 0⟩, 2, 1, none⟩],
       nodeCmp x ⟨⟨0, 0⟩, 2, 1, none⟩ ≠ .gt) :=
  ⟨C1_tie_breaks_to_smaller_h.1 ⟨⟨0, 0⟩, 2, 1, none⟩ ⟨⟨0, 0⟩, 0, 3, none⟩ (by decide)
     (by decide),
   C1_tie_breaks_to_smaller_h.2 [⟨⟨0, 0⟩, 0, 3, none⟩, ⟨⟨0, 0⟩, 2, 1, none⟩]
     ⟨⟨0, 0⟩, 2, 1, none⟩ [⟨⟨0, 0⟩, 0, 3, none⟩] (by decide)⟩

/-! ### Claim C8: set_walkable out of bounds -/

/-- C8, counterexample: `set_walkable` at an out-of-bounds position is *not* a
no-op on the grid state — the source inserts the binding unconditionally, so
the walkability map gains an entry and the grid value changes. -/
theorem C8_counterexample :
    ¬ (Grid.new 2 2).inBounds ⟨5, 5⟩ ∧
      (Grid.new 2 2).set_walkable ⟨5, 5⟩ false ≠ Grid.new 2 2 := by
  decide

/-- C8, amended: for an out-of-bounds position the insert is observationally a
no-op through `is_walkable` — every walkability query returns the same value
as before — although the underlying map does gain an entry. -/
theorem C8_out_of_bounds_queries_unchanged (g : Grid) (p : Position) (b : Bool)
    (h : ¬ g.inBounds p) (q : Position) :
    (g.set_walkable p b).is_walkable q = g.is_walkable q := by
  rw [Grid.is_walkable_set]
  by_cases hq : q = p
  · subst hq
    rw [if_pos rfl, if_neg h, (Grid.not_inBounds_is_walkable h).symm]
  · rw [if_neg hq]

/-- Witness for the amended C8 at a concrete grid, position and query. -/
theorem C8_out_of_bounds_queries_unchanged_witness :
    ((Grid.new 2 2).set_walkable ⟨5, 5⟩ false).is_walkable ⟨1, 1⟩ =
      (Grid.new 2 2).is_walkable ⟨1, 1⟩ :=
  C8_out_of_bounds_queries_unchanged (Grid.new 2 2) ⟨5, 5⟩ false (by decide) ⟨1, 1⟩

/-! ### A* loop invariants (arbitrary grids) -/

section Astar

variable (g : Grid) (s goal : Position)

/-- Invariants of the A* loop state.  `C` is the closed set; `R` is the part
of the closed set whose neighbors have all been relaxed (during the expansion
of a freshly closed node `R` is the previous closed set, everywhere else
`R = C`). -/
structure PInv (H : List Node) (C R : Finset Position) (F : FMap) (S : SMap) : Prop where
  heap_walk : ∀ n ∈ H, g.is_walkable n.position = true
  heap_h : ∀ n ∈ H, n.h_cost = heuristic n.position goal
  heap_g : ∀ n ∈ H, ∃ γ, alookup S n.position = some γ ∧ γ ≤ n.g_cost
  s_low : ∀ p γ, alookup S p = some γ → g.is_walkable p = true ∧ 0 ≤ γ
  s_open : ∀ p γ, alookup S p = some γ → p ∈ C ∨ ∃ n ∈ H, n.position = p ∧ n.g_cost = γ
  f_inv : ∀ p c, alookup F p = some c → c ∈ C ∧ p ∈ c.neighbors ∧
      ∃ γc, alookup S c = some γc ∧ alookup S p = some (γc + 1)
  s_start : alookup S s = some 0
  f_start : alookup F s = none
  f_exists : ∀ p, p ≠ s → ∀ γ, alookup S p = some γ → ∃ c, alookup F p = some c
  closed_s : ∀ p ∈ C, ∃ γ, alookup S p = some γ
  relax_lite : ∀ c ∈ R, ∀ q ∈ Position.neighbors c, g.is_walkable q = true →
      ∃ γ, alookup S q = some γ
  goal_open : goal ∉ C

/-- The full invariant: all closed nodes have been relaxed. -/
def GInv (H : List Node) (C : Finset Position) (F : FMap) (S : SMap) : Prop :=
  PInv g s goal H C C F S

/-- Skipping a stale pop (position already closed) preserves the invariant. -/
theorem GInv_skip {H H' : List Node} {C : Finset Position} {F : FMap} {S : SMap} {m : Node}
    (hI : GInv g s goal H C F S) (hpop : popMax H = some (m, H'))
    (hm : m.position ∈ C) : GInv g s goal H' C F S := by
  obtain ⟨h1, h2, h3, h4, h5, h6, h7, h8, h9, h10, h11, h12⟩ := hI
  refine ⟨fun n hn => h1 n (popMax_sublist_mem hpop n hn),
          fun n hn => h2 n (popMax_sublist_mem hpop n hn),
          fun n hn => h3 n (popMax_sublist_mem hpop n hn),
          h4, ?_, h6, h7, h8, h9, h10, h11, h12⟩
  intro p γ hS
  rcases h5 p γ hS with hc | ⟨n, hn, hnp, hng⟩
  · exact Or.inl hc
  · rcases popMax_cover hpop n hn with rfl | hn'
    · exact Or.inl (hnp ▸ hm)
    · exact Or.inr ⟨n, hn', hnp, hng⟩

/-- A pop whose position is not closed carries exactly the currently recorded
g-score of its position (stale entries with larger g cannot overtake the
better queued entry for the same position). -/
theorem processed_g {H H' : List Node} {C : Finset Position} {F : FMap} {S : SMap} {m : Node}
    (hI : GInv g s goal H C F S) (hpop : popMax H = some (m, H'))
    (hm : m.position ∉ C) : alookup S m.position = some m.g_cost := by
  obtain ⟨γ, hγ, hle⟩ := hI.heap_g m (popMax_mem hpop)
  rcases hI.s_open m.position γ hγ with hc | ⟨n, hn, hnp, hng⟩
  · exact absurd hc hm
  · have hmax := popMax_max hpop n hn
    rw [notGT_iff] at hmax
    have hhm := hI.heap_h m (popMax_mem hpop)
    have hhn := hI.heap_h n hn
    have hfm : m.f_cost = m.g_cost + heuristic m.position goal := by
      unfold Node.f_cost; rw [hhm]
    have hfn : n.f_cost = γ + heuristic m.position goal := by
      unfold Node.f_cost; rw [hhn, hng, hnp]
    have : m.g_cost ≤ γ := by omega
    have : γ = m.g_cost := le_antisymm hle this
    rw [hγ, this]

/-- One neighbor-relaxation step preserves the invariant (with the relax
obligation still held only for the old closed set `C`). -/
theorem relaxNbr_pres {m : Node} {C C' : Finset Position} {st : OpenState} {q : Position}
    (hq : q ∈ m.position.neighbors)
    (hPI : PInv g s goal st.heap C' C st.fmap st.smap)
    (hcur : alookup st.smap m.position = some m.g_cost)
    (hmem : m.position ∈ C')
    (hg0 : 0 ≤ m.g_cost) :
    PInv g s goal (relaxNbr g goal m C' st q).heap C' C (relaxNbr g goal m C' st q).fmap
        (relaxNbr g goal m C' st q).smap ∧
      alookup (relaxNbr g goal m C' st q).smap m.position = some m.g_cost ∧
      (g.is_walkable q = true → ∃ γ, alookup (relaxNbr g goal m C' st q).smap q = some γ) ∧
      (∀ r γ, alookup st.smap r = some γ →
        ∃ γ', alookup (relaxNbr g goal m C' st q).smap r = some γ') := by
  by_cases hguard : g.is_walkable q = true ∧ q ∉ C'
  case neg =>
    have hst : relaxNbr g goal m C' st q = st := by
      unfold relaxNbr
      rw [if_neg hguard]
    rw [hst]
    refine ⟨hPI, hcur, ?_, fun r γ h => ⟨γ, h⟩⟩
    intro hwq
    have hqC : q ∈ C' := by
      by_contra hc
      exact hguard ⟨hwq, hc⟩
    exact hPI.closed_s q hqC
  case pos =>
    obtain ⟨hwq, hqC⟩ := hguard
    have hmq : m.position ≠ q := fun h => hqC (h ▸ hmem)
    -- whether the relaxation actually fires
    by_cases hfire :
      (match alookup st.smap q with
       | some eg => decide (m.g_cost + 1 < eg)
       | none => true) = true
    case neg =>
      have hst : relaxNbr g goal m C' st q = st := by
        unfold relaxNbr
        rw [if_pos ⟨hwq, hqC⟩]
        simp only
        rw [if_neg hfire]
      rw [hst]
      refine ⟨hPI, hcur, ?_, fun r γ h => ⟨γ, h⟩⟩
      intro _
      cases hS : alookup st.smap q with
      | none => rw [hS] at hfire; simp at hfire
      | some eg => exact ⟨eg, rfl⟩
    case pos =>
      have hst : relaxNbr g goal m C' st q =
          ⟨Node.new q (m.g_cost + 1) (heuristic q goal) (some m.position) :: st.heap,
           (q, m.position) :: st.fmap, (q, m.g_cost + 1) :: st.smap⟩ := by
        unfold relaxNbr
        rw [if_pos ⟨hwq, hqC⟩]
        simp only
        rw [if_pos hfire]
      have hmono : ∀ r γ, alookup st.smap r = some γ →
          ∃ γ', alookup ((q, m.g_cost + 1) :: st.smap) r = some γ' := by
        intro r γ h
        by_cases hr : q = r
        · subst hr; exact ⟨m.g_cost + 1, by simp⟩
        · exact ⟨γ, by rw [alookup_cons_ne _ _ hr]; exact h⟩
      have hqs : q ≠ s := by
        intro he
        have h0 := hPI.s_start
        rw [← he] at h0
        rw [h0] at hfire
        simp at hfire
        omega
      rw [hst]
      obtain ⟨h1, h2, h3, h4, h5, h6, h7, h8, h9, h10, h11, h12⟩ := hPI
      refine ⟨⟨?_, ?_, ?_, ?_, ?_, ?_, ?_, ?_, ?_, ?_, ?_, h12⟩, ?_, ?_, hmono⟩
      · -- heap_walk
        intro n hn
        rcases List.mem_cons.1 hn with rfl | hn'
        · exact hwq
        · exact h1 n hn'
      · -- heap_h
        intro n hn
        rcases List.mem_cons.1 hn with rfl | hn'
        · rfl
        · exact h2 n hn'
      · -- heap_g
        intro n hn
        rcases List.mem_cons.1 hn with rfl | hn'
        · exact ⟨m.g_cost + 1, by simp [Node.new], le_refl _⟩
        · obtain ⟨γ, hγ, hle⟩ := h3 n hn'
          by_cases hr : q = n.position
          · rw [← hr] at hγ
            refine ⟨m.g_cost + 1, by rw [← hr, alookup_cons_self], ?_⟩
            cases hS : alookup st.smap q with
            | none => rw [hS] at hγ; simp at hγ
            | some eg =>
              rw [hS] at hγ hfire
              simp at hfire
              injection hγ with hγ
              omega
          · exact ⟨γ, by rw [alookup_cons_ne _ _ hr]; exact hγ, hle⟩
      · -- s_low
        intro p γ hp
        by_cases hr : q = p
        · subst hr
          rw [alookup_cons_self] at hp
          injection hp with hp
          exact ⟨hwq, by omega⟩
        · rw [alookup_cons_ne _ _ hr] at hp
          exact h4 p γ hp
      · -- s_open
        intro p γ hp
        by_cases hr : q = p
        · subst hr
          rw [alookup_cons_self] at hp
          injection hp with hp
          exact Or.inr ⟨Node.new q (m.g_cost + 1) (heuristic q goal) (some m.position),
            List.mem_cons_self _ _, rfl, hp⟩
        · rw [alookup_cons_ne _ _ hr] at hp
          rcases h5 p γ hp with hc | ⟨n, hn, hnp, hng⟩
          · exact Or.inl hc
          · exact Or.inr ⟨n, List.mem_cons_of_mem _ hn, hnp, hng⟩
      · -- f_inv
        intro p c hp
        by_cases hr : q = p
        · subst hr
          rw [alookup_cons_self] at hp
          injection hp with hp
          subst hp
          refine ⟨hmem, hq, m.g_cost, ?_, by simp⟩
          rw [alookup_cons_ne _ _ hmq.symm]
          exact hcur
        · rw [alookup_cons_ne _ _ hr] at hp
          obtain ⟨hcC, hpn, γc, hγc, hγp⟩ := h6 p c hp
          have hcq : q ≠ c := fun h => hqC (h ▸ hcC)
          refine ⟨hcC, hpn, γc, ?_, ?_⟩
          · rw [alookup_cons_ne _ _ hcq]; exact hγc
          · rw [alookup_cons_ne _ _ hr]; exact hγp
      · -- s_start
        rw [alookup_cons_ne _ _ hqs]; exact h7
      · -- f_start
        rw [alookup_cons_ne _ _ hqs]; exact h8
      · -- f_exists
        intro p hp γ hγ
        by_cases hr : q = p
        · subst hr
          exact ⟨m.position, by simp⟩
        · rw [alookup_cons_ne _ _ hr] at hγ
          obtain ⟨c, hc⟩ := h9 p hp γ hγ
          exact ⟨c, by rw [alookup_cons_ne _ _ hr]; exact hc⟩
      · -- closed_s
        intro p hp
        have hr : q ≠ p := fun h => hqC (h ▸ hp)
        obtain ⟨γ, hγ⟩ := h10 p hp
        exact ⟨γ, by rw [alookup_cons_ne _ _ hr]; exact hγ⟩
      · -- relax_lite (over old C)
        intro c hc q' hq' hw'
        obtain ⟨γ, hγ⟩ := h11 c hc q' hq' hw'
        exact hmono q' γ hγ
      · -- current g-score survives
        rw [alookup_cons_ne _ _ hmq.symm]; exact hcur
      · -- q now has a g-score
        intro _
        exact ⟨m.g_cost + 1, by simp⟩

/-- The whole neighbor-expansion fold preserves the invariant and records a
g-score for every walkable expanded neighbor. -/
theorem expand_pres {m : Node} {C C' : Finset Position} :
    ∀ (ns : List Position) (st : OpenState),
    (∀ q ∈ ns, q ∈ m.position.neighbors) →
    PInv g s goal st.heap C' C st.fmap st.smap →
    alookup st.smap m.position = some m.g_cost →
    m.position ∈ C' → 0 ≤ m.g_cost →
    PInv g s goal (expand g goal m C' st ns).heap C' C (expand g goal m C' st ns).fmap
        (expand g goal m C' st ns).smap ∧
      alookup (expand g goal m C' st ns).smap m.position = some m.g_cost ∧
      (∀ q ∈ ns, g.is_walkable q = true →
        ∃ γ, alookup (expand g goal m C' st ns).smap q = some γ) ∧
      (∀ r γ, alookup st.smap r = some γ →
        ∃ γ', alookup (expand g goal m C' st ns).smap r = some γ')
  | [], st, _, hPI, hcur, _, _ => ⟨hPI, hcur, by simp, fun r γ h => ⟨γ, h⟩⟩
  | q :: ns, st, hns, hPI, hcur, hmem, hg0 => by
    obtain ⟨hPI', hcur', hq', hmono'⟩ :=
      relaxNbr_pres g s goal (hns q (List.mem_cons_self _ _)) hPI hcur hmem hg0
    obtain ⟨hPI'', hcur'', hqs'', hmono''⟩ :=
      expand_pres ns (relaxNbr g goal m C' st q)
        (fun r hr => hns r (List.mem_cons_of_mem _ hr)) hPI' hcur' hmem hg0
    refine ⟨hPI'', hcur'', ?_, ?_⟩
    · intro r hr hw
      rcases List.mem_cons.1 hr with rfl | hr'
      · obtain ⟨γ, hγ⟩ := hq' hw
        exact hmono'' r γ hγ
      · exact hqs'' r hr' hw
    · intro r γ h
      obtain ⟨γ', h'⟩ := hmono' r γ h
      exact hmono'' r γ' h'

/-- The expansion adds at most one heap entry per neighbor. -/
theorem expand_heap_le (m : Node) (C' : Finset Position) :
    ∀ (ns : List Position) (st : OpenState),
    (expand g goal m C' st ns).heap.length ≤ st.heap.length + ns.length
  | [], st => le_refl _
  | q :: ns, st => by
    have h1 : (relaxNbr g goal m C' st q).heap.length ≤ st.heap.length + 1 := by
      unfold relaxNbr
      by_cases hguard : g.is_walkable q = true ∧ q ∉ C'
      · rw [if_pos hguard]
        simp only
        by_cases hfire :
          (match alookup st.smap q with
           | some eg => decide (m.g_cost + 1 < eg)
           | none => true) = true
        · rw [if_pos hfire]; simp
        · rw [if_neg hfire]; omega
      · rw [if_neg hguard]; omega
    calc (expand g goal m C' (relaxNbr g goal m C' st q) ns).heap.length
        ≤ (relaxNbr g goal m C' st q).heap.length + ns.length := expand_heap_le m C' ns _
      _ ≤ st.heap.length + 1 + ns.length := by omega
      _ = st.heap.length + (q :: ns).length := by simp; omega

/-- Processing a freshly popped, unclosed, non-goal node preserves the full
invariant. -/
theorem GInv_process {H H' : List Node} {C : Finset Position} {F : FMap} {S : SMap} {m : Node}
    (hI : GInv g s goal H C F S) (hpop : popMax H = some (m, H'))
    (hmC : m.position ∉ C) (hmg : m.position ≠ goal) :
    GInv g s goal
      (expand g goal m (insert m.position C) ⟨H', F, S⟩ m.position.neighbors).heap
      (insert m.position C)
      (expand g goal m (insert m.position C) ⟨H', F, S⟩ m.position.neighbors).fmap
      (expand g goal m (insert m.position C) ⟨H', F, S⟩ m.position.neighbors).smap := by
  have hgm : alookup S m.position = some m.g_cost := processed_g g s goal hI hpop hmC
  have hg0 : 0 ≤ m.g_cost := (hI.s_low m.position m.g_cost hgm).2
  have hmem : m.position ∈ insert m.position C := Finset.mem_insert_self _ _
  -- the invariant before the expansion, relax obligation only for the old C
  have hpre : PInv g s goal H' (insert m.position C) C F S := by
    obtain ⟨h1, h2, h3, h4, h5, h6, h7, h8, h9, h10, h11, h12⟩ := hI
    refine ⟨fun n hn => h1 n (popMax_sublist_mem hpop n hn),
            fun n hn => h2 n (popMax_sublist_mem hpop n hn),
            fun n hn => h3 n (popMax_sublist_mem hpop n hn),
            h4, ?_, ?_, h7, h8, h9, ?_, h11, ?_⟩
    · intro p γ hS
      rcases h5 p γ hS with hc | ⟨n, hn, hnp, hng⟩
      · exact Or.inl (Finset.mem_insert_of_mem hc)
      · rcases popMax_cover hpop n hn with rfl | hn'
        · exact Or.inl (hnp ▸ hmem)
        · exact Or.inr ⟨n, hn', hnp, hng⟩
    · intro p c hp
      obtain ⟨hcC, hpn, γc, hγc, hγp⟩ := h6 p c hp
      exact ⟨Finset.mem_insert_of_mem hcC, hpn, γc, hγc, hγp⟩
    · intro p hp
      rcases Finset.mem_insert.1 hp with rfl | hp'
      · exact ⟨m.g_cost, hgm⟩
      · exact h10 p hp'
    · intro hc
      rcases Finset.mem_insert.1 hc with hc' | hc'
      · exact hmg hc'.symm
      · exact h12 hc'
  obtain ⟨hPI, hcur, hnbrs, hmono⟩ :=
    expand_pres g s goal m.position.neighbors ⟨H', F, S⟩ (fun _ h => h) hpre hgm hmem hg0
  obtain ⟨h1, h2, h3, h4, h5, h6, h7, h8, h9, h10, h11, h12⟩ := hPI
  refine ⟨h1, h2, h3, h4, h5, h6, h7, h8, h9, h10, ?_, h12⟩
  intro c hc q hq hw
  rcases Finset.mem_insert.1 hc with rfl | hc'
  · exact hnbrs q hq hw
  · exact h11 c hc' q hq hw

/-- Helper: `getLast?` of a cons with a nonempty tail. -/
theorem getLast?_cons_ne_nil {α : Type} (a : α) {l : List α} (h : l ≠ []) :
    (a :: l).getLast? = l.getLast? := by
  cases l with
  | nil => exact absurd rfl h
  | cons b t => rfl

/-- Helper: `dropLast` of a cons with a nonempty tail. -/
theorem dropLast_cons_ne_nil {α : Type} (a : α) {l : List α} (h : l ≠ []) :
    (a :: l).dropLast = a :: l.dropLast := by
  cases l with
  | nil => exact absurd rfl h
  | cons b t => rfl

/-- The predecessor walk from any scored position: it has exactly `γ + 1`
cells, ends at the start, steps only between walkable neighboring cells, and
never repeats a cell. -/
theorem chain_spec {H : List Node} {C : Finset Position} {F : FMap} {S : SMap}
    (hI : GInv g s goal H C F S) :
    ∀ (k : Nat) (γ : Int) (p : Position), γ.toNat = k → alookup S p = some γ →
    ∀ fuel, γ.toNat ≤ fuel →
    (walkParents fuel F p).length = γ.toNat + 1 ∧
      (walkParents fuel F p).head? = some p ∧
      (walkParents fuel F p).getLast? = some s ∧
      (∀ q ∈ walkParents fuel F p, g.is_walkable q = true) ∧
      (walkParents fuel F p).Chain' (fun a b => a ∈ b.neighbors) ∧
      (walkParents fuel F p).Nodup ∧
      (∀ q ∈ walkParents fuel F p, ∃ δ, alookup S q = some δ ∧ δ ≤ γ) ∧
      (∀ q ∈ (walkParents fuel F p).dropLast, (alookup F q).isSome) := by
  intro k
  induction k with
  | zero =>
    intro γ p hk hS fuel hfuel
    have h0 : 0 ≤ γ := (hI.s_low p γ hS).2
    have hγ0 : γ = 0 := by omega
    subst hγ0
    have hF : alookup F p = none := by
      cases hF : alookup F p with
      | none => rfl
      | some c =>
        obtain ⟨-, -, γc, hγc, hγp⟩ := hI.f_inv p c hF
        have : (0 : Int) ≤ γc := (hI.s_low c γc hγc).2
        rw [hS] at hγp
        injection hγp with hγp
        omega
    have hp : p = s := by
      by_contra hne
      obtain ⟨c, hc⟩ := hI.f_exists p hne 0 hS
      rw [hF] at hc
      exact absurd hc (by simp)
    subst hp
    have hwp : walkParents fuel F p = [p] := by
      cases fuel with
      | zero => rfl
      | succ f => simp [walkParents, hF]
    rw [hwp]
    refine ⟨rfl, rfl, rfl, ?_, by simp, by simp, ?_, by simp⟩
    · intro q hq
      simp at hq
      subst hq
      exact (hI.s_low q 0 hS).1
    · intro q hq
      simp at hq
      subst hq
      exact ⟨0, hS, le_refl _⟩
  | succ k ih =>
    intro γ p hk hS fuel hfuel
    have h1 : 1 ≤ γ := by omega
    have hps : p ≠ s := by
      intro he
      subst he
      rw [hI.s_start] at hS
      injection hS with hS
      omega
    obtain ⟨c, hc⟩ := hI.f_exists p hps γ hS
    obtain ⟨hcC, hpn, γc, hγc, hγp⟩ := hI.f_inv p c hc
    rw [hS] at hγp
    injection hγp with hγp
    have hγck : γc.toNat = k := by omega
    obtain ⟨f', rfl⟩ : ∃ f', fuel = f' + 1 := ⟨fuel - 1, by omega⟩
    have hf' : γc.toNat ≤ f' := by omega
    have hwp : walkParents (f' + 1) F p = p :: walkParents f' F c := by
      simp [walkParents, hc]
    obtain ⟨ihlen, ihhead, ihlast, ihwalk, ihchain, ihnodup, ihbound, ihdrop⟩ :=
      ih γc c hγck hγc f' hf'
    have hne : walkParents f' F c ≠ [] := by
      intro he
      rw [he] at ihlen
      simp at ihlen
    rw [hwp]
    refine ⟨?_, rfl, ?_, ?_, ?_, ?_, ?_, ?_⟩
    · simp [ihlen]; omega
    · rw [getLast?_cons_ne_nil p hne]; exact ihlast
    · intro q hq
      rcases List.mem_cons.1 hq with rfl | hq'
      · exact (hI.s_low q γ hS).1
      · exact ihwalk q hq'
    · rw [List.chain'_cons']
      refine ⟨?_, ihchain⟩
      intro y hy
      rw [ihhead] at hy
      injection hy with hy
      subst hy
      exact hpn
    · rw [List.nodup_cons]
      refine ⟨?_, ihnodup⟩
      intro hmem
      obtain ⟨δ, hδ, hδle⟩ := ihbound p hmem
      rw [hS] at hδ
      injection hδ with hδ
      omega
    · intro q hq
      rcases List.mem_cons.1 hq with rfl | hq'
      · exact ⟨γ, hS, le_refl _⟩
      · obtain ⟨δ, hδ, hδle⟩ := ihbound q hq'
        exact ⟨δ, hδ, by omega⟩
    · rw [dropLast_cons_ne_nil p hne]
      intro q hq
      rcases List.mem_cons.1 hq with rfl | hq'
      · rw [hc]; rfl
      · exact ihdrop q hq'

/-- The length of any predecessor chain is bounded by the size of the
`came_from` map, so the fuel used by `reconstruct_path` suffices. -/
theorem chain_bound {H : List Node} {C : Finset Position} {F : FMap} {S : SMap}
    (hI : GInv g s goal H C F S) {γ : Int} {p : Position}
    (hS : alookup S p = some γ) : γ.toNat ≤ F.length := by
  obtain ⟨hlen, -, -, -, -, hnodup, -, hdrop⟩ :=
    chain_spec g s goal hI γ.toNat γ p rfl hS γ.toNat (le_refl _)
  set l := walkParents γ.toNat F p with hl
  have hsub : l.dropLast ⊆ F.map Prod.fst := by
    intro q hq
    exact alookup_isSome_mem_keys F q (hdrop q hq)
  have hnd : l.dropLast.Nodup := (List.dropLast_sublist l).nodup hnodup
  have hle : l.dropLast.length ≤ (F.map Prod.fst).length :=
    (hnd.subperm hsub).length_le
  rw [List.length_dropLast, hlen, List.length_map] at hle
  omega

/-- Soundness of the search loop: any returned list is a walkable 4-connected
path from start to goal. -/
theorem loopA_sound : ∀ (fuel : Nat) (H : List Node) (C : Finset Position) (F : FMap)
    (S : SMap) (l : List Position),
    GInv g s goal H C F S →
    loopA g goal fuel H C F S = some l →
    IsPath g s goal l
  | 0, H, C, F, S, l, hI, hrun => by simp [loopA] at hrun
  | fuel + 1, H, C, F, S, l, hI, hrun => by
    cases hpop : popMax H with
    | none => simp [loopA, hpop] at hrun
    | some pr =>
      obtain ⟨m, H'⟩ := pr
      simp only [loopA, hpop] at hrun
      by_cases hgoal : m.position = goal
      · rw [if_pos hgoal] at hrun
        injection hrun with hrun
        obtain ⟨γ, hγ, -⟩ := hI.heap_g m (popMax_mem hpop)
        have hbound := chain_bound g s goal hI hγ
        obtain ⟨hlen, hhead, hlast, hwalk, hchain, -, -, -⟩ :=
          chain_spec g s goal hI γ.toNat γ m.position rfl hγ (F.length + 1) (by omega)
        set l₀ := walkParents (F.length + 1) F m.position with hl₀
        have hne : l₀ ≠ [] := by
          intro he
          rw [he] at hlen
          simp at hlen
        rw [← hrun]
        unfold reconstruct_path
        refine ⟨by simpa using hne, ?_, ?_, ?_, ?_⟩
        · rw [List.head?_reverse]
          exact hlast
        · rw [List.getLast?_reverse]
          rw [hhead, hgoal]
        · intro q hq
          rw [List.mem_reverse] at hq
          exact hwalk q hq
        · rw [List.chain'_reverse]
          exact hchain
      · rw [if_neg hgoal] at hrun
        by_cases hC : m.position ∈ C
        · rw [if_pos hC] at hrun
          exact loopA_sound fuel H' C F S l (GInv_skip g s goal hI hpop hC) hrun
        · rw [if_neg hC] at hrun
          exact loopA_sound fuel _ _ _ _ l (GInv_process g s goal hI hpop hC hgoal) hrun

/-- If the heap is empty, the closed set is closed under walkable neighbor
steps, so no walkable path from start to goal can exist (the goal is never in
the closed set). -/
theorem no_path_of_empty_heap {C : Finset Position} {F : FMap} {S : SMap}
    (hI : GInv g s goal [] C F S) : ¬ ∃ l, IsPath g s goal l := by
  rintro ⟨l, hne, hhead, hlast, hwalk, hchain⟩
  have hsC : s ∈ C := by
    rcases hI.s_open s 0 hI.s_start with hc | ⟨n, hn, -⟩
    · exact hc
    · simp at hn
  have key : ∀ (l' : List Position) (a : Position), l'.head? = some a → a ∈ C →
      l'.Chain' (fun x y => y ∈ x.neighbors) → (∀ p ∈ l', g.is_walkable p = true) →
      ∃ b, l'.getLast? = some b ∧ b ∈ C := by
    intro l'
    induction l' with
    | nil => intro a h; simp at h
    | cons x t ihl =>
      intro a hh ha hch hw
      have hax : a = x := by injection hh with hh; exact hh.symm
      subst hax
      cases t with
      | nil => exact ⟨a, rfl, ha⟩
      | cons y t' =>
        rw [List.chain'_cons] at hch
        obtain ⟨hyx, hch'⟩ := hch
        have hywalk : g.is_walkable y = true := hw y (by simp)
        obtain ⟨γ, hγ⟩ := hI.relax_lite a ha y hyx hywalk
        have hyC : y ∈ C := by
          rcases hI.s_open y γ hγ with hc | ⟨n, hn, -⟩
          · exact hc
          · simp at hn
        obtain ⟨b, hb, hbC⟩ := ihl y rfl hyC hch' (fun p hp => hw p (List.mem_cons_of_mem _ hp))
        exact ⟨b, by rw [getLast?_cons_ne_nil a (by simp)]; exact hb, hbC⟩
  obtain ⟨b, hb, hbC⟩ := key l s hhead hsC hchain hwalk
  rw [hlast] at hb
  injection hb with hb
  subst hb
  exact hI.goal_open hbC

/-- Completeness of the search loop: with sufficient fuel (as supplied by
`find_path`), if any walkable path from start to goal exists then the loop
returns a path. -/
theorem loopA_complete : ∀ (fuel : Nat) (H : List Node) (C : Finset Position) (F : FMap)
    (S : SMap),
    GInv g s goal H C F S →
    H.length + 4 * ((cells g) \ C).card ≤ fuel →
    (∃ l₀, IsPath g s goal l₀) →
    ∃ l, loopA g goal fuel H C F S = some l
  | 0, H, C, F, S, hI, hfuel, hex => by
    have hH : H = [] := by
      cases H with
      | nil => rfl
      | cons n t => simp at hfuel
    subst hH
    exact absurd hex (no_path_of_empty_heap g s goal hI)
  | fuel + 1, H, C, F, S, hI, hfuel, hex => by
    cases hpop : popMax H with
    | none =>
      have hH : H = [] := (popMax_eq_none_iff H).1 hpop
      subst hH
      exact absurd hex (no_path_of_empty_heap g s goal hI)
    | some pr =>
      obtain ⟨m, H'⟩ := pr
      have hlen := popMax_length hpop
      by_cases hgoal : m.position = goal
      · exact ⟨reconstruct_path F m.position, by simp [loopA, hpop, if_pos hgoal]⟩
      · by_cases hC : m.position ∈ C
        · obtain ⟨l, hl⟩ := loopA_complete fuel H' C F S (GInv_skip g s goal hI hpop hC)
            (by omega) hex
          exact ⟨l, by simp [loopA, hpop, if_neg hgoal, if_pos hC, hl]⟩
        · have hmcell : m.position ∈ cells g :=
            mem_cells.2 (Grid.inBounds_of_is_walkable (hI.heap_walk m (popMax_mem hpop)))
          have hsd : m.position ∈ (cells g) \ C := Finset.mem_sdiff.2 ⟨hmcell, hC⟩
          have hcard : ((cells g) \ insert m.position C).card = ((cells g) \ C).card - 1 := by
            rw [Finset.sdiff_insert, Finset.card_erase_of_mem hsd]
          have hpos : 1 ≤ ((cells g) \ C).card := Finset.card_pos.2 ⟨m.position, hsd⟩
          have hexp := expand_heap_le g goal m (insert m.position C)
            m.position.neighbors (⟨H', F, S⟩ : OpenState)
          have hfuel' :
              (expand g goal m (insert m.position C) ⟨H', F, S⟩ m.position.neighbors).heap.length
                + 4 * ((cells g) \ insert m.position C).card ≤ fuel := by
            have h4 : (Position.neighbors m.position).length = 4 := rfl
            rw [hcard]
            simp only [h4] at hexp
            omega
          obtain ⟨l, hl⟩ := loopA_complete fuel _ _ _ _
            (GInv_process g s goal hI hpop hC hgoal) hfuel' hex
          exact ⟨l, by simp [loopA, hpop, if_neg hgoal, if_neg hC, hl]⟩

/-- The invariant holds for the initial search state. -/
theorem GInv_init (hs : g.is_walkable s = true) :
    GInv g s goal [Node.new s 0 (heuristic s goal) none] ∅ [] [(s, 0)] := by
  have hlook : ∀ p γ, alookup [(s, (0 : Int))] p = some γ → p = s ∧ γ = 0 := by
    intro p γ h
    by_cases hp : s = p
    · subst hp
      rw [alookup_cons_self] at h
      injection h with h
      exact ⟨rfl, h.symm⟩
    · rw [alookup_cons_ne _ _ hp] at h
      simp at h
  refine ⟨?_, ?_, ?_, ?_, ?_, ?_, ?_, rfl, ?_, ?_, ?_, ?_⟩
  · intro n hn
    simp at hn
    subst hn
    exact hs
  · intro n hn
    simp at hn
    subst hn
    rfl
  · intro n hn
    simp at hn
    subst hn
    exact ⟨0, by simp [Node.new], le_refl _⟩
  · intro p γ h
    obtain ⟨rfl, rfl⟩ := hlook p γ h
    exact ⟨hs, le_refl _⟩
  · intro p γ h
    obtain ⟨rfl, rfl⟩ := hlook p γ h
    exact Or.inr ⟨Node.new p 0 (heuristic p goal) none, by simp, rfl, rfl⟩
  · intro p c h
    simp at h
  · simp
  · intro p hp γ h
    obtain ⟨rfl, -⟩ := hlook p γ h
    exact absurd rfl hp
  · intro p hp
    simp at hp
  · intro c hc
    simp at hc
  · simp

/-- Soundness of `find_path`: any returned list is a nonempty walkable
4-connected path from `start` to `goal`. -/
theorem find_path_sound {g : Grid} {s t : Position} {l : List Position}
    (h : find_path g s t = some l) : IsPath g s t l := by
  unfold find_path at h
  by_cases hg : g.is_walkable s = true ∧ g.is_walkable t = true
  · rw [if_pos hg] at h
    exact loopA_sound g s t _ _ _ _ _ _ (GInv_init g s t hg.1) h
  · rw [if_neg hg] at h
    simp at h

/-- Completeness of `find_path`: if a walkable 4-connected path exists then
`find_path` returns one. -/
theorem find_path_complete {g : Grid} {s t : Position}
    (h : ∃ l, IsPath g s t l) : ∃ l', find_path g s t = some l' := by
  obtain ⟨l, hne, hhead, hlast, hwalk, hchain⟩ := h
  have hs : g.is_walkable s = true := by
    apply hwalk
    exact List.mem_of_mem_head? hhead
  have ht : g.is_walkable t = true := by
    apply hwalk
    exact List.mem_of_mem_getLast? hlast
  unfold find_path
  rw [if_pos ⟨hs, ht⟩]
  apply loopA_complete g s t _ _ _ _ _ (GInv_init g s t hs)
  · simp
  · exact ⟨l, hne, hhead, hlast, hwalk, hchain⟩

end Astar

/-! ### Claim C4: returned paths are walkable and 4-connected -/

/-- C4: for every grid and every start/goal pair, whenever `find_path` returns
`some path`, every position in the path is walkable and every two consecutive
positions differ by exactly 1 in exactly one coordinate. -/
theorem C4_returned_paths_walkable_connected (g : Grid) (s t : Position) (l : List Position)
    (h : find_path g s t = some l) :
    (∀ p ∈ l, g.is_walkable p = true) ∧ l.Chain' adjacent := by
  obtain ⟨-, -, -, hwalk, hchain⟩ := find_path_sound h
  exact ⟨hwalk, List.Chain'.imp (fun a b hb => adjacent_iff_mem_neighbors.2 hb) hchain⟩

/-- Witness for C4 at a concrete grid and path. -/
theorem C4_returned_paths_walkable_connected_witness :
    (∀ p ∈ [(⟨0, 0⟩ : Position)], (Grid.new 1 1).is_walkable p = true) ∧
      List.Chain' adjacent [(⟨0, 0⟩ : Position)] :=
  C4_returned_paths_walkable_connected (Grid.new 1 1) ⟨0, 0⟩ ⟨0, 0⟩ [⟨0, 0⟩] (by decide)

/-! ### Optimality on obstacle-free grids (claim C3) -/

/-- One grid step from `p` toward `s` (used only in proofs; axes in the order
x then y). -/
def stepToward (s p : Position) : Position :=
  if p.x < s.x then ⟨p.x + 1, p.y⟩
  else if s.x < p.x then ⟨p.x - 1, p.y⟩
  else if p.y < s.y then ⟨p.x, p.y + 1⟩
  else ⟨p.x, p.y - 1⟩

theorem stepToward_spec {s p : Position} (h : p ≠ s) :
    s.manhattan_distance (stepToward s p) + 1 = s.manhattan_distance p ∧
      p ∈ (stepToward s p).neighbors := by
  have h' : p.x ≠ s.x ∨ p.y ≠ s.y := by
    by_contra hc
    push_neg at hc
    apply h
    obtain ⟨px, py⟩ := p
    obtain ⟨sx, sy⟩ := s
    simp only [Position.mk.injEq]
    exact hc
  unfold stepToward
  split_ifs with h1 h2 h3 <;>
    refine ⟨?_, ?_⟩ <;>
      first
        | (unfold Position.manhattan_distance; dsimp only; omega)
        | (rw [Position.mem_neighbors_iff]; dsimp only; omega)

theorem stepToward_inBounds {g : Grid} {s p : Position} (hs : g.inBounds s)
    (hp : g.inBounds p) (h : p ≠ s) : g.inBounds (stepToward s p) := by
  have h' : p.x ≠ s.x ∨ p.y ≠ s.y := by
    by_contra hc
    push_neg at hc
    apply h
    obtain ⟨px, py⟩ := p
    obtain ⟨sx, sy⟩ := s
    simp only [Position.mk.injEq]
    exact hc
  obtain ⟨hs1, hs2, hs3, hs4⟩ := hs
  obtain ⟨hp1, hp2, hp3, hp4⟩ := hp
  unfold stepToward
  split_ifs with h1 h2 h3 <;> (unfold Grid.inBounds; dsimp only; omega)

section Astar

variable (g : Grid) (s goal : Position)

/-- Additional invariants that hold on an obstacle-free grid, where the
Manhattan heuristic is exact: recorded g-scores are bounded below by the true
distance, closed nodes carry optimal g-scores, neighbors of relaxed closed
nodes have g-scores within one step of optimal, and predecessor links record
exactly one optimal step.  `R` is as in `PInv`. -/
structure EPInv (C R : Finset Position) (F : FMap) (S : SMap) : Prop where
  s_lowD : ∀ p γ, alookup S p = some γ → s.manhattan_distance p ≤ γ
  closed_opt : ∀ p ∈ C, alookup S p = some (s.manhattan_distance p)
  relax_opt : ∀ c ∈ R, ∀ q ∈ Position.neighbors c, g.is_walkable q = true →
      ∃ γ, alookup S q = some γ ∧ γ ≤ s.manhattan_distance c + 1
  f_opt : ∀ p c, alookup F p = some c →
      alookup S p = some (s.manhattan_distance c + 1)

/-- The full obstacle-free invariant. -/
def EInv (C : Finset Position) (F : FMap) (S : SMap) : Prop :=
  EPInv g s C C F S

/-- The frontier lemma: on an obstacle-free grid, as long as an in-bounds
position `p` is not closed, some unclosed position `r` carries a g-score that
certifies a route to `p` of total cost at most the true distance from the
start. -/
theorem frontier_key {H : List Node} {C : Finset Position} {F : FMap} {S : SMap}
    (hfree : ∀ p, g.inBounds p → g.is_walkable p = true) (hsB : g.inBounds s)
    (hG : GInv g s goal H C F S) (hE : EInv g s C F S) :
    ∀ (k : Nat) (p : Position), (s.manhattan_distance p).toNat = k →
      g.inBounds p → p ∉ C →
      ∃ r γ, alookup S r = some γ ∧ r ∉ C ∧
        γ + r.manhattan_distance p ≤ s.manhattan_distance p := by
  intro k
  induction k with
  | zero =>
    intro p hk hp hpC
    have h0 : 0 ≤ s.manhattan_distance p := Position.manhattan_nonneg s p
    have hsp : s.manhattan_distance p = 0 := by omega
    have : s = p := Position.manhattan_eq_zero_iff.1 hsp
    subst this
    exact ⟨s, 0, hG.s_start, hpC, by rw [Position.manhattan_self]; omega⟩
  | succ k ih =>
    intro p hk hp hpC
    have h1 : 1 ≤ s.manhattan_distance p := by
      have := Position.manhattan_nonneg s p
      omega
    have hps : p ≠ s := by
      intro he
      subst he
      rw [Position.manhattan_self] at h1
      omega
    obtain ⟨hd, hnb⟩ := stepToward_spec hps
    have hsB' : g.inBounds (stepToward s p) := stepToward_inBounds hsB hp hps
    have hd1 : (stepToward s p).manhattan_distance p = 1 :=
      Position.manhattan_of_mem_neighbors hnb
    by_cases hC : stepToward s p ∈ C
    · obtain ⟨γp, hγp, hle⟩ :=
        hE.relax_opt (stepToward s p) hC p hnb (hfree p hp)
      exact ⟨p, γp, hγp, hpC, by rw [Position.manhattan_self]; omega⟩
    · obtain ⟨r, γ, hr, hrC, hle⟩ := ih (stepToward s p) (by omega) hsB' hC
      refine ⟨r, γ, hr, hrC, ?_⟩
      have htr : r.manhattan_distance p ≤
          r.manhattan_distance (stepToward s p) + (stepToward s p).manhattan_distance p :=
        Position.manhattan_triangle r (stepToward s p) p
      omega

/-- On an obstacle-free grid every pop of an unclosed position carries the
optimal g-score — the true Manhattan distance from the start. -/
theorem popped_opt {H H' : List Node} {C : Finset Position} {F : FMap} {S : SMap} {m : Node}
    (hfree : ∀ p, g.inBounds p → g.is_walkable p = true) (hsB : g.inBounds s)
    (hG : GInv g s goal H C F S) (hE : EInv g s C F S)
    (hpop : popMax H = some (m, H')) (hmC : m.position ∉ C) :
    alookup S m.position = some (s.manhattan_distance m.position) ∧
      m.g_cost = s.manhattan_distance m.position := by
  have hP1 := processed_g g s goal hG hpop hmC
  have hlow := hE.s_lowD m.position m.g_cost hP1
  have hinB : g.inBounds m.position :=
    Grid.inBounds_of_is_walkable (hG.heap_walk m (popMax_mem hpop))
  obtain ⟨r, γ, hr, hrC, hle⟩ := frontier_key g s goal hfree hsB hG hE
    (s.manhattan_distance m.position).toNat m.position rfl hinB hmC
  rcases hG.s_open r γ hr with hc | ⟨n, hn, hnp, hng⟩
  · exact absurd hc hrC
  · have hmax := popMax_max hpop n hn
    rw [notGT_iff] at hmax
    have hhm := hG.heap_h m (popMax_mem hpop)
    have hhn := hG.heap_h n hn
    have hfm : m.f_cost = m.g_cost + m.position.manhattan_distance goal := by
      unfold Node.f_cost
      rw [hhm]
      rfl
    have hfn : n.f_cost = γ + r.manhattan_distance goal := by
      unfold Node.f_cost
      rw [hhn, hng, hnp]
      rfl
    have htr : r.manhattan_distance goal ≤
        r.manhattan_distance m.position + m.position.manhattan_distance goal :=
      Position.manhattan_triangle r m.position goal
    have hgopt : m.g_cost = s.manhattan_distance m.position := by omega
    exact ⟨by rw [hP1, hgopt], hgopt⟩

/-- One neighbor-relaxation step preserves the obstacle-free invariant. -/
theorem relaxNbr_presE {m : Node} {C C' : Finset Position} {st : OpenState} {q : Position}
    (hq : q ∈ m.position.neighbors)
    (hEP : EPInv g s C' C st.fmap st.smap)
    (hgm : m.g_cost = s.manhattan_distance m.position) :
    EPInv g s C' C (relaxNbr g goal m C' st q).fmap (relaxNbr g goal m C' st q).smap ∧
      (g.is_walkable q = true →
        ∃ γ, alookup (relaxNbr g goal m C' st q).smap q = some γ ∧
          γ ≤ s.manhattan_distance m.position + 1) ∧
      (∀ r γ, alookup st.smap r = some γ →
        ∃ γ', alookup (relaxNbr g goal m C' st q).smap r = some γ' ∧ γ' ≤ γ) := by
  have hqm : q ≠ m.position := Position.ne_of_mem_neighbors hq
  have htri : s.manhattan_distance q ≤ s.manhattan_distance m.position + 1 := by
    have h1 : m.position.manhattan_distance q = 1 := Position.manhattan_of_mem_neighbors hq
    have := Position.manhattan_triangle s m.position q
    omega
  by_cases hguard : g.is_walkable q = true ∧ q ∉ C'
  case neg =>
    have hst : relaxNbr g goal m C' st q = st := by
      unfold relaxNbr
      rw [if_neg hguard]
    rw [hst]
    refine ⟨hEP, ?_, fun r γ h => ⟨γ, h, le_refl _⟩⟩
    intro hwq
    have hqC : q ∈ C' := by
      by_contra hc
      exact hguard ⟨hwq, hc⟩
    refine ⟨s.manhattan_distance q, hEP.closed_opt q hqC, htri⟩
  case pos =>
    obtain ⟨hwq, hqC⟩ := hguard
    by_cases hfire :
      (match alookup st.smap q with
       | some eg => decide (m.g_cost + 1 < eg)
       | none => true) = true
    case neg =>
      have hst : relaxNbr g goal m C' st q = st := by
        unfold relaxNbr
        rw [if_pos ⟨hwq, hqC⟩]
        simp only
        rw [if_neg hfire]
      rw [hst]
      refine ⟨hEP, ?_, fun r γ h => ⟨γ, h, le_refl _⟩⟩
      intro _
      cases hS : alookup st.smap q with
      | none => rw [hS] at hfire; simp at hfire
      | some eg =>
        rw [hS] at hfire
        simp at hfire
        exact ⟨eg, rfl, by omega⟩
    case pos =>
      have hst : relaxNbr g goal m C' st q =
          ⟨Node.new q (m.g_cost + 1) (heuristic q goal) (some m.position) :: st.heap,
           (q, m.position) :: st.fmap, (q, m.g_cost + 1) :: st.smap⟩ := by
        unfold relaxNbr
        rw [if_pos ⟨hwq, hqC⟩]
        simp only
        rw [if_pos hfire]
      rw [hst]
      have hmono : ∀ r γ, alookup st.smap r = some γ →
          ∃ γ', alookup ((q, m.g_cost + 1) :: st.smap) r = some γ' ∧ γ' ≤ γ := by
        intro r γ h
        by_cases hr : q = r
        · subst hr
          refine ⟨m.g_cost + 1, by simp, ?_⟩
          rw [h] at hfire
          simp at hfire
          omega
        · exact ⟨γ, by rw [alookup_cons_ne _ _ hr]; exact h, le_refl _⟩
      obtain ⟨e1, e2, e3, e4⟩ := hEP
      refine ⟨⟨?_, ?_, ?_, ?_⟩, ?_, hmono⟩
      · -- s_lowD
        intro p γ hp
        by_cases hr : q = p
        · subst hr
          rw [alookup_cons_self] at hp
          injection hp with hp
          omega
        · rw [alookup_cons_ne _ _ hr] at hp
          exact e1 p γ hp
      · -- closed_opt
        intro p hp
        have hr : q ≠ p := fun h => hqC (h ▸ hp)
        rw [alookup_cons_ne _ _ hr]
        exact e2 p hp
      · -- relax_opt (over old C)
        intro c hc q' hq' hw'
        obtain ⟨γ, hγ, hb⟩ := e3 c hc q' hq' hw'
        obtain ⟨γ', hγ', hle'⟩ := hmono q' γ hγ
        exact ⟨γ', hγ', by omega⟩
      · -- f_opt
        intro p c hp
        by_cases hr : q = p
        · subst hr
          rw [alookup_cons_self] at hp
          injection hp with hp
          subst hp
          rw [alookup_cons_self, hgm]
        · rw [alookup_cons_ne _ _ hr] at hp
          rw [alookup_cons_ne _ _ hr]
          exact e4 p c hp
      · -- the relaxed neighbor is within one step of optimal
        intro _
        exact ⟨m.g_cost + 1, by simp, by omega⟩

/-- The whole neighbor-expansion fold preserves the obstacle-free invariant. -/
theorem expand_presE {m : Node} {C C' : Finset Position} :
    ∀ (ns : List Position) (st : OpenState),
    (∀ q ∈ ns, q ∈ m.position.neighbors) →
    EPInv g s C' C st.fmap st.smap →
    alookup st.smap m.position = some m.g_cost →
    m.g_cost = s.manhattan_distance m.position →
    m.position ∈ C' →
    EPInv g s C' C (expand g goal m C' st ns).fmap (expand g goal m C' st ns).smap ∧
      (∀ q ∈ ns, g.is_walkable q = true →
        ∃ γ, alookup (expand g goal m C' st ns).smap q = some γ ∧
          γ ≤ s.manhattan_distance m.position + 1) ∧
      (∀ r γ, alookup st.smap r = some γ →
        ∃ γ', alookup (expand g goal m C' st ns).smap r = some γ' ∧ γ' ≤ γ)
  | [], st, _, hEP, _, _, _ => ⟨hEP, by simp, fun r γ h => ⟨γ, h, le_refl _⟩⟩
  | q :: ns, st, hns, hEP, hcur, hgm, hmem => by
    obtain ⟨hEP', hq', hmono'⟩ :=
      relaxNbr_presE g s goal (hns q (List.mem_cons_self _ _)) hEP hgm
    have hcur' : alookup (relaxNbr g goal m C' st q).smap m.position = some m.g_cost := by
      obtain ⟨γ', hγ', hle'⟩ := hmono' m.position m.g_cost hcur
      -- the value at the current position can only have been overwritten by a
      -- strictly smaller one, but it is already optimal, hence unchanged
      have hlow := hEP'.s_lowD m.position γ' hγ'
      have : γ' = m.g_cost := by omega
      rw [hγ', this]
    obtain ⟨hEP'', hqs'', hmono''⟩ :=
      expand_presE ns (relaxNbr g goal m C' st q)
        (fun r hr => hns r (List.mem_cons_of_mem _ hr)) hEP' hcur' hgm hmem
    refine ⟨hEP'', ?_, ?_⟩
    · intro r hr hw
      rcases List.mem_cons.1 hr with rfl | hr'
      · obtain ⟨γ, hγ, hb⟩ := hq' hw
        obtain ⟨γ', hγ', hle'⟩ := hmono'' r γ hγ
        exact ⟨γ', hγ', by omega⟩
      · exact hqs'' r hr' hw
    · intro r γ h
      obtain ⟨γ', h', hle'⟩ := hmono' r γ h
      obtain ⟨γ'', h'', hle''⟩ := hmono'' r γ' h'
      exact ⟨γ'', h'', by omega⟩

/-- Processing a freshly popped node preserves the obstacle-free invariant. -/
theorem EInv_process {H H' : List Node} {C : Finset Position} {F : FMap} {S : SMap} {m : Node}
    (hfree : ∀ p, g.inBounds p → g.is_walkable p = true) (hsB : g.inBounds s)
    (hG : GInv g s goal H C F S) (hE : EInv g s C F S)
    (hpop : popMax H = some (m, H')) (hmC : m.position ∉ C) :
    EInv g s (insert m.position C)
      (expand g goal m (insert m.position C) ⟨H', F, S⟩ m.position.neighbors).fmap
      (expand g goal m (insert m.position C) ⟨H', F, S⟩ m.position.neighbors).smap := by
  obtain ⟨hopt, hgm⟩ := popped_opt g s goal hfree hsB hG hE hpop hmC
  have hcur : alookup S m.position = some m.g_cost := by rw [hopt, hgm]
  have hmem : m.position ∈ insert m.position C := Finset.mem_insert_self _ _
  have hpre : EPInv g s (insert m.position C) C F S := by
    obtain ⟨e1, e2, e3, e4⟩ := hE
    refine ⟨e1, ?_, e3, e4⟩
    intro p hp
    rcases Finset.mem_insert.1 hp with rfl | hp'
    · rw [hopt]
    · exact e2 p hp'
  obtain ⟨hEP, hnbrs, hmono⟩ :=
    expand_presE g s goal m.position.neighbors ⟨H', F, S⟩ (fun _ h => h) hpre hcur hgm hmem
  obtain ⟨e1, e2, e3, e4⟩ := hEP
  refine ⟨e1, e2, ?_, e4⟩
  intro c hc q hq hw
  rcases Finset.mem_insert.1 hc with rfl | hc'
  · obtain ⟨γ, hγ, hb⟩ := hnbrs q hq hw
    exact ⟨γ, hγ, by rw [← hgm] at hb ⊢; omega⟩
  · exact e3 c hc' q hq hw

/-- On an obstacle-free grid, the loop returns a path of exactly the optimal
length between start and goal. -/
theorem loopA_opt : ∀ (fuel : Nat) (H : List Node) (C : Finset Position) (F : FMap)
    (S : SMap),
    GInv g s goal H C F S → EInv g s C F S →
    (∀ p, g.inBounds p → g.is_walkable p = true) →
    g.inBounds s → g.inBounds goal →
    H.length + 4 * ((cells g) \ C).card ≤ fuel →
    ∃ l, loopA g goal fuel H C F S = some l ∧
      l.length = (s.manhattan_distance goal).toNat + 1 ∧
      l.head? = some s ∧ l.getLast? = some goal
  | 0, H, C, F, S, hG, hE, hfree, hsB, htB, hfuel => by
    exfalso
    have hH : H = [] := by
      cases H with
      | nil => rfl
      | cons n t => simp at hfuel
    subst hH
    obtain ⟨r, γ, hr, hrC, -⟩ := frontier_key g s goal hfree hsB hG hE
      (s.manhattan_distance goal).toNat goal rfl htB hG.goal_open
    rcases hG.s_open r γ hr with hc | ⟨n, hn, -⟩
    · exact hrC hc
    · simp at hn
  | fuel + 1, H, C, F, S, hG, hE, hfree, hsB, htB, hfuel => by
    cases hpop : popMax H with
    | none =>
      exfalso
      have hH : H = [] := (popMax_eq_none_iff H).1 hpop
      subst hH
      obtain ⟨r, γ, hr, hrC, -⟩ := frontier_key g s goal hfree hsB hG hE
        (s.manhattan_distance goal).toNat goal rfl htB hG.goal_open
      rcases hG.s_open r γ hr with hc | ⟨n, hn, -⟩
      · exact hrC hc
      · simp at hn
    | some pr =>
      obtain ⟨m, H'⟩ := pr
      have hlen := popMax_length hpop
      by_cases hgoal : m.position = goal
      · -- goal popped: reconstruct the optimal path
        have hmC : m.position ∉ C := hgoal ▸ hG.goal_open
        obtain ⟨hopt, -⟩ := popped_opt g s goal hfree hsB hG hE hpop hmC
        have hbound := chain_bound g s goal hG hopt
        obtain ⟨hlen0, hhead, hlast, -, -, -, -, -⟩ :=
          chain_spec g s goal hG (s.manhattan_distance m.position).toNat
            (s.manhattan_distance m.position) m.position rfl hopt (F.length + 1) (by omega)
        refine ⟨reconstruct_path F m.position, by simp [loopA, hpop, if_pos hgoal], ?_, ?_, ?_⟩
        · unfold reconstruct_path
          rw [List.length_reverse, hlen0, hgoal]
        · unfold reconstruct_path
          rw [List.head?_reverse]
          exact hlast
        · unfold reconstruct_path
          rw [List.getLast?_reverse, hhead, hgoal]
      · by_cases hC : m.position ∈ C
        · obtain ⟨l, hl, hp1, hp2, hp3⟩ := loopA_opt fuel H' C F S
            (GInv_skip g s goal hG hpop hC) hE hfree hsB htB (by omega)
          exact ⟨l, by simp [loopA, hpop, if_neg hgoal, if_pos hC, hl], hp1, hp2, hp3⟩
        · have hmcell : m.position ∈ cells g :=
            mem_cells.2 (Grid.inBounds_of_is_walkable (hG.heap_walk m (popMax_mem hpop)))
          have hsd : m.position ∈ (cells g) \ C := Finset.mem_sdiff.2 ⟨hmcell, hC⟩
          have hcard : ((cells g) \ insert m.position C).card = ((cells g) \ C).card - 1 := by
            rw [Finset.sdiff_insert, Finset.card_erase_of_mem hsd]
          have hpos : 1 ≤ ((cells g) \ C).card := Finset.card_pos.2 ⟨m.position, hsd⟩
          have hexp := expand_heap_le g goal m (insert m.position C)
            m.position.neighbors (⟨H', F, S⟩ : OpenState)
          have hfuel' :
              (expand g goal m (insert m.position C) ⟨H', F, S⟩ m.position.neighbors).heap.length
                + 4 * ((cells g) \ insert m.position C).card ≤ fuel := by
            have h4 : (Position.neighbors m.position).length = 4 := rfl
            rw [hcard]
            simp only [h4] at hexp
            omega
          obtain ⟨l, hl, hp1, hp2, hp3⟩ := loopA_opt fuel _ _ _ _
            (GInv_process g s goal hG hpop hC hgoal)
            (EInv_process g s goal hfree hsB hG hE hpop hC) hfree hsB htB hfuel'
          exact ⟨l, by simp [loopA, hpop, if_neg hgoal, if_neg hC, hl], hp1, hp2, hp3⟩

/-- The obstacle-free invariant holds initially. -/
theorem EInv_init : EInv g s (∅ : Finset Position) [] [(s, 0)] := by
  refine ⟨?_, ?_, ?_, ?_⟩
  · intro p γ h
    by_cases hp : s = p
    · subst hp
      rw [alookup_cons_self] at h
      injection h with h
      rw [Position.manhattan_self]
      omega
    · rw [alookup_cons_ne _ _ hp] at h
      simp at h
  · intro p hp
    simp at hp
  · intro c hc
    simp at hc
  · intro p c h
    simp at h

end Astar

/-- C3: on a grid with no blocked cells, for every pair of in-bounds positions
`find_path` returns `some` path containing exactly
`manhattan_distance(start, goal) + 1` positions, beginning at `start` and
ending at `goal`. -/
theorem C3_obstacle_free_optimal (g : Grid) (s t : Position)
    (hs : g.inBounds s) (ht : g.inBounds t)
    (hfree : ∀ p, g.inBounds p → g.is_walkable p = true) :
    ∃ l, find_path g s t = some l ∧
      l.length = (s.manhattan_distance t).toNat + 1 ∧
      l.head? = some s ∧ l.getLast? = some t := by
  unfold find_path
  rw [if_pos ⟨hfree s hs, hfree t ht⟩]
  exact loopA_opt g s t (1 + 4 * (cells g).card) _ _ _ _
    (GInv_init g s t (hfree s hs)) (EInv_init g s) hfree hs ht
    (by simp)

/-- Witness for C3 on the concrete 1x1 obstacle-free grid. -/
theorem C3_obstacle_free_optimal_witness :
    ∃ l, find_path (Grid.new 1 1) ⟨0, 0⟩ ⟨0, 0⟩ = some l ∧
      l.length = ((Position.mk 0 0).manhattan_distance ⟨0, 0⟩).toNat + 1 ∧
      l.head? = some ⟨0, 0⟩ ∧ l.getLast? = some ⟨0, 0⟩ :=
  C3_obstacle_free_optimal (Grid.new 1 1) ⟨0, 0⟩ ⟨0, 0⟩ (by decide) (by decide)
    (fun p hp => by rw [Grid.is_walkable_eq_true_of_inBounds hp]; rfl)

/-! ### The game model (main.rs)

`f32` scalars become `ℚ`.  Every distance comparison in the source computes a
square root and compares it against a non-negative threshold; the embedding
compares squares instead, which is exact over the rationals.  The only places
where the value of a square root (or arctangent) is actually stored — the
normalized direction vector of a partial movement step, and the cosmetic aim
rotation — take it from an unspecified `RealOps` parameter; every theorem
below holds for every choice of `RealOps`.  Rust `HashMap`s keyed by entity id
become association lists (insertion at the tail; iteration order of a Rust
hash map is unspecified, and no proved statement depends on the order). -/

structure RealOps where
  sqrtQ : ℚ → ℚ
  atan2Q : ℚ → ℚ → ℚ

/-- CELL_SIZE = 40.0. -/
def CELL_SIZE : ℚ := 40

def GRID_WIDTH : Int := 20
def GRID_HEIGHT : Int := 15

inductive TowerType
  | Basic
  | Sniper
  | Splash
  | Slow
deriving DecidableEq, Repr

namespace TowerType

def cost : TowerType → Int
  | Basic => 50
  | Sniper => 100
  | Splash => 75
  | Slow => 60

def range : TowerType → ℚ
  | Basic => 3
  | Sniper => 6
  | Splash => 5 / 2
  | Slow => 7 / 2

def damage : TowerType → Int
  | Basic => 10
  | Sniper => 50
  | Splash => 15
  | Slow => 5

def fire_rate : TowerType → ℚ
  | Basic => 1
  | Sniper => 3 / 10
  | Splash => 4 / 5
  | Slow => 2

def projectile_speed : TowerType → ℚ
  | Basic => 300
  | Sniper => 600
  | Splash => 200
  | Slow => 250

def splash_radius : TowerType → ℚ
  | Splash => 3 / 2
  | _ => 0

end TowerType

/-- `Tower` (colors are cosmetic and omitted). -/
structure Tower where
  id : Nat
  tower_type : TowerType
  position : Position
  cooldown_remaining : ℚ
  target_id : Option Nat
  rotation : ℚ
deriving DecidableEq, Repr

namespace Tower

def new (id : Nat) (tower_type : TowerType) (position : Position) : Tower :=
  ⟨id, tower_type, position, 0, none, 0⟩

def can_shoot (t : Tower) : Bool := decide (t.cooldown_remaining ≤ 0)

def update (delta : ℚ) (t : Tower) : Tower :=
  if t.cooldown_remaining > 0 then
    { t with cooldown_remaining := t.cooldown_remaining - delta }
  else t

def shoot (t : Tower) : Tower :=
  { t with cooldown_remaining := 1 / t.tower_type.fire_rate }

def world_position (t : Tower) : ℚ × ℚ :=
  (t.position.to_world.1 + CELL_SIZE / 2, t.position.to_world.2 + CELL_SIZE / 2)

end Tower

structure Projectile where
  id : Nat
  tower_type : TowerType
  x : ℚ
  y : ℚ
  target_id : Nat
  target_x : ℚ
  target_y : ℚ
  damage : Int
  speed : ℚ
  lifetime : ℚ
deriving DecidableEq, Repr

namespace Projectile

def new (id : Nat) (tower_type : TowerType) (start_x start_y : ℚ) (target_id : Nat)
    (target_x target_y : ℚ) : Projectile :=
  ⟨id, tower_type, start_x, start_y, target_id, target_x, target_y,
   tower_type.damage, tower_type.projectile_speed, 5⟩

/-- `Projectile::update`.  Returns `(still_active, updated projectile)`. -/
def update (ops : RealOps) (delta : ℚ) (enemy_pos : Option (ℚ × ℚ)) (p : Projectile) :
    Bool × Projectile :=
  let p := { p with lifetime := p.lifetime - delta }
  let p :=
    match enemy_pos with
    | some q => { p with target_x := q.1, target_y := q.2 }
    | none => p
  let dx := p.target_x - p.x
  let dy := p.target_y - p.y
  let dsq := dx * dx + dy * dy
  if dsq < 5 * 5 ∨ p.lifetime ≤ 0 then (false, p)
  else
    let move_distance := p.speed * delta
    if 0 ≤ move_distance ∧ dsq ≤ move_distance * move_distance then
      (false, { p with x := p.target_x, y := p.target_y })
    else
      let distance := ops.sqrtQ dsq
      (true, { p with x := p.x + dx / distance * move_distance,
                      y := p.y + dy / distance * move_distance })

def has_hit (p : Projectile) : Bool :=
  let dx := p.target_x - p.x
  let dy := p.target_y - p.y
  decide (dx * dx + dy * dy < 10 * 10)

end Projectile

structure Enemy where
  id : Nat
  x : ℚ
  y : ℚ
  path : List Position
  current_waypoint : Nat
  speed : ℚ
  health : Int
  max_health : Int
  slow_duration : ℚ
  slow_multiplier : ℚ
deriving DecidableEq, Repr

namespace Enemy

def new (id : Nat) (start goal : Position) (grid : Grid) : Option Enemy :=
  (find_waypoints grid start goal).map fun path =>
    ⟨id, start.to_world.1 + CELL_SIZE / 2, start.to_world.2 + CELL_SIZE / 2,
     path, 0, 50, 100, 100, 0, 1⟩

/-- The slow-effect decay at the top of `Enemy::update`. -/
def updateSlow (delta : ℚ) (e : Enemy) : Enemy :=
  if e.slow_duration > 0 then
    let sd := e.slow_duration - delta
    if sd ≤ 0 then { e with slow_duration := sd, slow_multiplier := 1 }
    else { e with slow_duration := sd }
  else e

/-- `Enemy::update`.  Returns `(still_moving, updated enemy)`. -/
def update (ops : RealOps) (delta : ℚ) (e0 : Enemy) : Bool × Enemy :=
  let e := e0.updateSlow delta
  if h : e.current_waypoint < e.path.length then
    let wp := e.path.get ⟨e.current_waypoint, h⟩
    let target_x := wp.to_world.1 + CELL_SIZE / 2
    let target_y := wp.to_world.2 + CELL_SIZE / 2
    let dx := target_x - e.x
    let dy := target_y - e.y
    let dsq := dx * dx + dy * dy
    if dsq < 2 * 2 then
      let e' := { e with current_waypoint := e.current_waypoint + 1 }
      (decide (e'.current_waypoint < e'.path.length), e')
    else
      let distance := ops.sqrtQ dsq
      let effective_speed := e.speed * e.slow_multiplier
      let move_distance := effective_speed * delta
      (true, { e with x := e.x + dx / distance * move_distance,
                      y := e.y + dy / distance * move_distance })
  else (false, e)

def recalculate_path (grid : Grid) (goal : Position) (e : Enemy) : Enemy :=
  match find_waypoints grid (Position.from_world e.x e.y) goal with
  | some new_path => { e with path := new_path, current_waypoint := 0 }
  | none => e

def take_damage (damage : Int) (e : Enemy) : Enemy :=
  { e with health := max (e.health - damage) 0 }

def is_alive (e : Enemy) : Bool := decide (e.health > 0)

def apply_slow (duration multiplier : ℚ) (e : Enemy) : Enemy :=
  { e with slow_duration := duration, slow_multiplier := multiplier }

end Enemy

/-- Muzzle flash (color omitted). -/
structure MuzzleFlash where
  x : ℚ
  y : ℚ
  lifetime : ℚ
  max_lifetime : ℚ
deriving DecidableEq, Repr

def MuzzleFlash.new (x y : ℚ) : MuzzleFlash := ⟨x, y, 1 / 10, 1 / 10⟩

def MuzzleFlash.update (delta : ℚ) (f : MuzzleFlash) : Bool × MuzzleFlash :=
  let f' := { f with lifetime := f.lifetime - delta }
  (decide (f'.lifetime > 0), f')

/-- Explosion effect (color omitted). -/
structure ExplosionEffect where
  x : ℚ
  y : ℚ
  radius : ℚ
  max_radius : ℚ
  lifetime : ℚ
  max_lifetime : ℚ
deriving DecidableEq, Repr

def ExplosionEffect.new (x y radius : ℚ) : ExplosionEffect :=
  ⟨x, y, 0, radius * CELL_SIZE, 3 / 10, 3 / 10⟩

def ExplosionEffect.update (delta : ℚ) (e : ExplosionEffect) : Bool × ExplosionEffect :=
  let lt := e.lifetime - delta
  let progress := 1 - lt / e.max_lifetime
  let e' := { e with lifetime := lt, radius := e.max_radius * progress }
  (decide (e'.lifetime > 0), e')

/-- Map-update of an association list at a key (`HashMap::get_mut`). -/
def aupdate {κ α : Type} [DecidableEq κ] (m : List (κ × α)) (k : κ) (f : α → α) :
    List (κ × α) :=
  m.map fun e => if e.1 = k then (e.1, f e.2) else e

structure GameState where
  grid : Grid
  towers : List (Nat × Tower)
  enemies : List (Nat × Enemy)
  spawn_point : Position
  goal_point : Position
  next_tower_id : Nat
  next_enemy_id : Nat
  gold : Int
  health : Int
  paused : Bool
deriving DecidableEq, Repr

namespace GameState

def new : GameState :=
  ⟨Grid.new GRID_WIDTH GRID_HEIGHT, [], [], ⟨0, 7⟩, ⟨19, 7⟩, 0, 0, 200, 20, false⟩

def place_tower (tower_type : TowerType) (position : Position) (st : GameState) :
    Bool × GameState :=
  if st.gold < tower_type.cost then (false, st)
  else if st.grid.is_walkable position = false then (false, st)
  else
    let tower := Tower.new st.next_tower_id tower_type position
    let st1 := { st with
      towers := st.towers ++ [(st.next_tower_id, tower)],
      next_tower_id := st.next_tower_id + 1,
      gold := st.gold - tower_type.cost,
      grid := st.grid.set_walkable position false }
    (true, { st1 with
      enemies := st1.enemies.map fun pr =>
        (pr.1, pr.2.recalculate_path st1.grid st1.goal_point) })

def spawn_enemy (st : GameState) : Bool × GameState :=
  match Enemy.new st.next_enemy_id st.spawn_point st.goal_point st.grid with
  | some enemy =>
    (true, { st with enemies := st.enemies ++ [(st.next_enemy_id, enemy)],
                     next_enemy_id := st.next_enemy_id + 1 })
  | none => (false, st)

def clear_all (st : GameState) : GameState :=
  { st with
    grid := st.towers.foldl (fun gr pr => gr.set_walkable pr.2.position true) st.grid,
    towers := [], enemies := [] }

end GameState

/-- A recorded projectile hit, applied in the damage phase: target enemy id,
damage, originating tower type, impact point. -/
structure Hit where
  enemy_id : Nat
  damage : Int
  tower_type : TowerType
  x : ℚ
  y : ℚ
deriving DecidableEq, Repr

structure Game where
  state : GameState
  projectiles : List (Nat × Projectile)
  next_projectile_id : Nat
  muzzle_flashes : List MuzzleFlash
  explosions : List ExplosionEffect
deriving DecidableEq, Repr

namespace Game

def new : Game := ⟨GameState.new, [], 0, [], []⟩

/-- `find_target_for_tower_at`: alive enemies within range, preferring the one
furthest along its path (`Iterator::max_by` returns the last maximal element
in iteration order). -/
def find_target_for_tower_at (g : Game) (tower_x tower_y : ℚ) (tower_type : TowerType) :
    Option Enemy :=
  let range := tower_type.range * CELL_SIZE
  let in_range := g.state.enemies.filter fun pr =>
    (decide ((pr.2.x - tower_x) * (pr.2.x - tower_x) +
             (pr.2.y - tower_y) * (pr.2.y - tower_y) ≤ range * range)) && pr.2.is_alive
  in_range.foldl
    (fun best pr =>
      match best with
      | none => some pr.2
      | some b => if pr.2.current_waypoint < b.current_waypoint then some b else some pr.2)
    none

/-- One iteration of the firing loop of `update_towers`.  The accumulator is
(towers, freshly created projectiles, next projectile id, new flashes). -/
def tower_fire_step (ops : RealOps) (g : Game)
    (acc : List (Nat × Tower) × List (Nat × Projectile) × Nat × List MuzzleFlash)
    (td : Nat × TowerType × ℚ × ℚ × Bool) :
    List (Nat × Tower) × List (Nat × Projectile) × Nat × List MuzzleFlash :=
  let (towers, projs, npid, flashes) := acc
  let (tower_id, tower_type, tower_x, tower_y, can_shoot) := td
  if can_shoot then
    match g.find_target_for_tower_at tower_x tower_y tower_type with
    | some target =>
      let towers := aupdate towers tower_id fun t =>
        Tower.shoot { t with
          rotation := ops.atan2Q (target.y - tower_y) (target.x - tower_x),
          target_id := some target.id }
      let projs := projs ++
        [(npid, Projectile.new npid tower_type tower_x tower_y target.id target.x target.y)]
      (towers, projs, npid + 1, flashes ++ [MuzzleFlash.new tower_x tower_y])
    | none =>
      (aupdate towers tower_id (fun t => { t with target_id := none }), projs, npid, flashes)
  else acc

def update_towers (ops : RealOps) (delta : ℚ) (g : Game) : Game :=
  let tower_data := g.state.towers.map fun pr =>
    (pr.1, pr.2.tower_type, pr.2.world_position.1, pr.2.world_position.2, pr.2.can_shoot)
  let towers0 := g.state.towers.map fun pr => (pr.1, pr.2.update delta)
  let res := tower_data.foldl (tower_fire_step ops g) (towers0, [], g.next_projectile_id, [])
  { g with state := { g.state with towers := res.1 },
           projectiles := g.projectiles ++ res.2.1,
           next_projectile_id := res.2.2.1,
           muzzle_flashes := g.muzzle_flashes ++ res.2.2.2 }

/-- One iteration of the projectile scan of `update_projectiles`.  The
accumulator is (projectiles kept, hits recorded so far). -/
def projectile_step (enemies : List (Nat × Enemy)) (ops : RealOps) (delta : ℚ)
    (acc : List (Nat × Projectile) × List Hit) (pr : Nat × Projectile) :
    List (Nat × Projectile) × List Hit :=
  let enemy_pos := (alookup enemies pr.2.target_id).map fun e => (e.x, e.y)
  let res := pr.2.update ops delta enemy_pos
  if res.1 = false ∨ res.2.has_hit = true then
    (acc.1,
     match alookup enemies res.2.target_id with
     | some e => acc.2 ++ [⟨res.2.target_id, res.2.damage, res.2.tower_type, e.x, e.y⟩]
     | none => acc.2)
  else (acc.1 ++ [(pr.1, res.2)], acc.2)

/-- Damage application to the enemy map, by tower type (`apply_damage` before
its death sweep). -/
def apply_damage_enemies (enemy_id : Nat) (damage : Int) (tower_type : TowerType)
    (hit_x hit_y : ℚ) (enemies : List (Nat × Enemy)) : List (Nat × Enemy) :=
  match tower_type with
  | TowerType.Splash =>
    let splash_radius := TowerType.splash_radius TowerType.Splash * CELL_SIZE
    enemies.map fun pr =>
      if (pr.2.x - hit_x) * (pr.2.x - hit_x) + (pr.2.y - hit_y) * (pr.2.y - hit_y) ≤
          splash_radius * splash_radius then
        (pr.1, pr.2.take_damage damage)
      else pr
  | TowerType.Slow =>
    aupdate enemies enemy_id fun e => (e.take_damage damage).apply_slow 2 (1 / 2)
  | _ => aupdate enemies enemy_id fun e => e.take_damage damage

/-- `apply_damage`: dispatch damage by tower type, then sweep dead enemies,
rewarding 10 gold per kill. -/
def apply_damage (hit : Hit) (g : Game) : Game :=
  let enemies1 :=
    apply_damage_enemies hit.enemy_id hit.damage hit.tower_type hit.x hit.y g.state.enemies
  let explosions1 :=
    match hit.tower_type with
    | TowerType.Splash =>
      g.explosions ++ [ExplosionEffect.new hit.x hit.y (TowerType.splash_radius TowerType.Splash)]
    | _ => g.explosions
  let dead := enemies1.filter fun pr => !pr.2.is_alive
  { g with
    state := { g.state with
      enemies := enemies1.filter fun pr => pr.2.is_alive,
      gold := g.state.gold + 10 * (dead.length : Int) },
    explosions := explosions1 }

/-- The projectile scan pass of `update_projectiles`: the projectiles kept and
the hits collected, before any damage is applied. -/
def scan_projectiles (ops : RealOps) (delta : ℚ) (g : Game) :
    List (Nat × Projectile) × List Hit :=
  g.projectiles.foldl (projectile_step g.state.enemies ops delta) ([], [])

def update_projectiles (ops : RealOps) (delta : ℚ) (g : Game) : Game :=
  let res := g.scan_projectiles ops delta
  let g1 := { g with projectiles := res.1 }
  res.2.foldl (fun acc h => apply_damage h acc) g1

def update_enemies (ops : RealOps) (delta : ℚ) (g : Game) : Game :=
  let stepped := g.state.enemies.map fun pr => (pr.1, pr.2.update ops delta)
  let kept := (stepped.filter fun pr => pr.2.1).map fun pr => (pr.1, pr.2.2)
  let removed := stepped.length - kept.length
  { g with state := { g.state with
      enemies := kept,
      health := g.state.health - (removed : Int) } }

def update_effects (delta : ℚ) (g : Game) : Game :=
  { g with
    muzzle_flashes := g.muzzle_flashes.filterMap fun f =>
      let res := f.update delta
      if res.1 then some res.2 else none,
    explosions := g.explosions.filterMap fun e =>
      let res := e.update delta
      if res.1 then some res.2 else none }

/-- `Game::update`: the per-tick phase order — towers, projectiles, enemies,
effects; a no-op while paused. -/
def update (ops : RealOps) (delta : ℚ) (g : Game) : Game :=
  if g.state.paused then g
  else
    update_effects delta (update_enemies ops delta
      (update_projectiles ops delta (update_towers ops delta g)))

end Game

/-! ### Bridges between the pathfinder's semantics and its callers -/

theorem find_path_eq_none_of_no_path {g : Grid} {s t : Position}
    (h : ¬ ∃ l, IsPath g s t l) : find_path g s t = none := by
  cases hf : find_path g s t with
  | none => rfl
  | some l => exact absurd ⟨l, find_path_sound hf⟩ h

theorem find_waypoints_eq_none {g : Grid} {s t : Position}
    (h : find_path g s t = none) : find_waypoints g s t = none := by
  unfold find_waypoints
  rw [h]
  rfl

theorem find_waypoints_isSome {g : Grid} {s t : Position} {l : List Position}
    (h : find_path g s t = some l) : ∃ w, find_waypoints g s t = some w := by
  unfold find_waypoints
  rw [h]
  exact ⟨_, rfl⟩

/-! ### Claim C5: spawn fails cleanly when no path exists -/

/-- C5: for every GameState in which no walkable 4-connected path exists from
`spawn_point` to `goal_point`, `spawn_enemy` returns `false` and leaves the
entire state unchanged (no enemy added, `next_enemy_id` not incremented, gold
unchanged). -/
theorem C5_spawn_fails_cleanly (st : GameState)
    (h : ¬ ∃ l, IsPath st.grid st.spawn_point st.goal_point l) :
    GameState.spawn_enemy st = (false, st) := by
  unfold GameState.spawn_enemy
  have hnone : Enemy.new st.next_enemy_id st.spawn_point st.goal_point st.grid = none := by
    unfold Enemy.new
    rw [find_waypoints_eq_none (find_path_eq_none_of_no_path h)]
    rfl
  rw [hnone]

/-- Witness for C5: a state whose spawn point is not walkable, so no path can
exist. -/
theorem C5_spawn_fails_cleanly_witness :
    GameState.spawn_enemy { GameState.new with grid := Grid.new 1 1 } =
      (false, { GameState.new with grid := Grid.new 1 1 }) :=
  C5_spawn_fails_cleanly { GameState.new with grid := Grid.new 1 1 }
    (by
      rintro ⟨l, hne, hhead, -, hwalk, -⟩
      have h2 := hwalk _ (List.mem_of_mem_head? hhead)
      exact absurd h2 (by decide))

/-! ### Claim C6: place_tower rejection mutates nothing -/

/-- C6: when `place_tower` is called with gold below the tower's cost, or with
a position that is not walkable (out of bounds or occupied), it returns
`false` and the whole state — gold, tower map, grid, `next_tower_id` and every
enemy's path — is unchanged. -/
theorem C6_place_tower_rejected (st : GameState) (tt : TowerType) (pos : Position)
    (h : st.gold < tt.cost ∨ st.grid.is_walkable pos = false) :
    GameState.place_tower tt pos st = (false, st) := by
  unfold GameState.place_tower
  rcases h with h | h
  · rw [if_pos h]
  · by_cases hg : st.gold < tt.cost
    · rw [if_pos hg]
    · rw [if_neg hg, if_pos h]

/-- Witness for C6 at a concrete rejected placement (out-of-bounds cell). -/
theorem C6_place_tower_rejected_witness :
    GameState.place_tower TowerType.Basic ⟨-1, 0⟩ GameState.new = (false, GameState.new) :=
  C6_place_tower_rejected GameState.new TowerType.Basic ⟨-1, 0⟩ (Or.inr (by decide))

/-! ### Claim C9: recalculate_path and stale paths -/

/-- C9: when no walkable path exists from the enemy's current grid cell to the
goal, `recalculate_path` leaves the enemy's stored path and waypoint index
exactly as they were; when a path does exist, the path is replaced by the
newly computed waypoints and `current_waypoint` is reset to 0. -/
theorem C9_recalculate_path_stale_or_reset (grid : Grid) (goal : Position) (e : Enemy) :
    ((¬ ∃ l, IsPath grid (Position.from_world e.x e.y) goal l) →
       Enemy.recalculate_path grid goal e = e) ∧
    ((∃ l, IsPath grid (Position.from_world e.x e.y) goal l) →
       ∃ w, find_waypoints grid (Position.from_world e.x e.y) goal = some w ∧
         Enemy.recalculate_path grid goal e = { e with path := w, current_waypoint := 0 }) := by
  constructor
  · intro h
    unfold Enemy.recalculate_path
    rw [find_waypoints_eq_none (find_path_eq_none_of_no_path h)]
  · intro h
    obtain ⟨l, hl⟩ := find_path_complete h
    obtain ⟨w, hw⟩ := find_waypoints_isSome hl
    refine ⟨w, hw, ?_⟩
    unfold Enemy.recalculate_path
    rw [hw]

/-- Witness for C9: an enemy standing at the goal cell of a 1x1 grid, for
which a (trivial) path exists, has its path replaced and waypoint reset. -/
theorem C9_recalculate_path_stale_or_reset_witness :
    ∃ w, find_waypoints (Grid.new 1 1)
        (Position.from_world (20 : ℚ) (20 : ℚ)) ⟨0, 0⟩ = some w ∧
      Enemy.recalculate_path (Grid.new 1 1) ⟨0, 0⟩
          ⟨0, 20, 20, [⟨0, 0⟩, ⟨0, 0⟩], 5, 50, 100, 100, 0, 1⟩ =
        { (⟨0, 20, 20, [⟨0, 0⟩, ⟨0, 0⟩], 5, 50, 100, 100, 0, 1⟩ : Enemy) with
            path := w, current_waypoint := 0 } :=
  (C9_recalculate_path_stale_or_reset (Grid.new 1 1) ⟨0, 0⟩
      ⟨0, 20, 20, [⟨0, 0⟩, ⟨0, 0⟩], 5, 50, 100, 100, 0, 1⟩).2
    ⟨[⟨0, 0⟩], by
      refine ⟨by simp, by norm_num [Position.from_world], rfl, ?_, List.chain'_singleton _⟩
      intro p hp
      simp at hp
      subst hp
      decide⟩

/-! ### Claim C2: projectile expiry far from the aim point -/

/-- A concrete interpretation of the unspecified real-valued operations. -/
def ops0 : RealOps := ⟨fun _ => 0, fun _ _ => 0⟩

def c2Enemy : Enemy := ⟨0, 1000, 0, [], 0, 50, 100, 100, 0, 1⟩

def c2Projectile : Projectile := ⟨7, TowerType.Basic, 0, 0, 0, 0, 0, 10, 300, 1 / 2⟩

def c2Game : Game :=
  ⟨{ GameState.new with enemies := [(0, c2Enemy)] }, [(7, c2Projectile)], 8, [], []⟩

theorem c2_update_eq :
    Projectile.update ops0 1 (some (1000, 0)) c2Projectile =
      (false, ⟨7, TowerType.Basic, 0, 0, 0, 1000, 0, 10, 300, -(1 / 2)⟩) := by
  unfold Projectile.update c2Projectile
  norm_num

theorem c2_scan_eq :
    Game.scan_projectiles ops0 1 c2Game = ([], [⟨0, 10, TowerType.Basic, 1000, 0⟩]) := by
  unfold Game.scan_projectiles c2Game Game.projectile_step
  simp [alookup, show c2Projectile.target_id = 0 from rfl, c2_update_eq,
    Projectile.has_hit, c2Enemy]

theorem c2_apply_eq :
    Game.update_projectiles ops0 1 c2Game =
      Game.apply_damage ⟨0, 10, TowerType.Basic, 1000, 0⟩ { c2Game with projectiles := [] } := by
  unfold Game.update_projectiles
  simp only [c2_scan_eq]
  rfl

/-- C2, counterexample: a projectile whose lifetime expires this tick, far
beyond the hit threshold from its aim point (still_active and has_hit both
false), with its target enemy alive at full health: the projectile is removed
but damage IS dealt — the target's health drops from 100 to 90. -/
theorem C2_counterexample :
    (Projectile.update ops0 1 (some (1000, 0)) c2Projectile).1 = false ∧
    (Projectile.update ops0 1 (some (1000, 0)) c2Projectile).2.has_hit = false ∧
    (alookup c2Game.state.enemies 0).map Enemy.health = some 100 ∧
    (Game.update_projectiles ops0 1 c2Game).projectiles = [] ∧
    (alookup (Game.update_projectiles ops0 1 c2Game).state.enemies 0).map Enemy.health
      = some 90 := by
  refine ⟨by rw [c2_update_eq], ?_, by simp [c2Game, c2Enemy, alookup], ?_, ?_⟩
  · rw [c2_update_eq]
    simp only [Projectile.has_hit, decide_eq_false_iff_not]
    norm_num
  · rw [c2_apply_eq]
    rfl
  · rw [c2_apply_eq]
    simp [Game.apply_damage, Game.apply_damage_enemies, aupdate, Enemy.take_damage,
      Enemy.is_alive, c2Game, c2Enemy, alookup]

/-- Expiry dominates `Projectile::update`: whatever the distance, once the
decremented lifetime is non-positive the projectile reports inactive, with its
target id, damage and tower type untouched. -/
theorem Projectile.update_expired (ops : RealOps) (delta : ℚ) (epos : Option (ℚ × ℚ))
    (p : Projectile) (h : p.lifetime - delta ≤ 0) :
    (Projectile.update ops delta epos p).1 = false ∧
    (Projectile.update ops delta epos p).2.target_id = p.target_id ∧
    (Projectile.update ops delta epos p).2.damage = p.damage ∧
    (Projectile.update ops delta epos p).2.tower_type = p.tower_type := by
  unfold Projectile.update
  cases epos with
  | none =>
    simp only
    split
    · exact ⟨rfl, rfl, rfl, rfl⟩
    · next hc =>
      push_neg at hc
      exact absurd h (by exact_mod_cast hc.2.not_le)
  | some q =>
    simp only
    split
    · exact ⟨rfl, rfl, rfl, rfl⟩
    · next hc =>
      push_neg at hc
      exact absurd h (by exact_mod_cast hc.2.not_le)

/-- One projectile-scan step only appends to the accumulator. -/
theorem projectile_step_decompose (E : List (Nat × Enemy)) (ops : RealOps) (delta : ℚ)
    (acc : List (Nat × Projectile) × List Hit) (pr : Nat × Projectile) :
    Game.projectile_step E ops delta acc pr =
      (acc.1 ++ (Game.projectile_step E ops delta ([], []) pr).1,
       acc.2 ++ (Game.projectile_step E ops delta ([], []) pr).2) := by
  simp only [Game.projectile_step]
  split
  · cases alookup E
      (Projectile.update ops delta ((alookup E pr.2.target_id).map fun e => (e.x, e.y))
        pr.2).2.target_id <;> simp
  · simp

/-- The projectile scan fold only appends to the accumulator. -/
theorem projectile_fold_decompose (E : List (Nat × Enemy)) (ops : RealOps) (delta : ℚ) :
    ∀ (projs : List (Nat × Projectile)) (acc : List (Nat × Projectile) × List Hit),
    projs.foldl (Game.projectile_step E ops delta) acc =
      (acc.1 ++ (projs.foldl (Game.projectile_step E ops delta) ([], [])).1,
       acc.2 ++ (projs.foldl (Game.projectile_step E ops delta) ([], [])).2)
  | [], acc => by simp
  | pr :: t, acc => by
    rw [List.foldl_cons, List.foldl_cons,
      projectile_fold_decompose E ops delta t (Game.projectile_step E ops delta acc pr),
      projectile_fold_decompose E ops delta t (Game.projectile_step E ops delta ([], []) pr),
      projectile_step_decompose]
    simp

/-- The per-element contribution to the kept-projectiles list carries the
element's own key. -/
theorem projectile_step_keep_sub (E : List (Nat × Enemy)) (ops : RealOps) (delta : ℚ)
    (pr : Nat × Projectile) :
    ((Game.projectile_step E ops delta ([], []) pr).1.map Prod.fst) ⊆ [pr.1] := by
  simp only [Game.projectile_step]
  split
  · simp
  · simp

/-- Kept projectile ids come from the scanned list. -/
theorem projectile_fold_keep_sub (E : List (Nat × Enemy)) (ops : RealOps) (delta : ℚ) :
    ∀ (projs : List (Nat × Projectile)),
    ((projs.foldl (Game.projectile_step E ops delta) ([], [])).1.map Prod.fst) ⊆
      projs.map Prod.fst
  | [] => by simp
  | pr :: t => by
    rw [List.foldl_cons, projectile_fold_decompose]
    intro x hx
    simp only [List.map_append, List.mem_append] at hx
    rcases hx with hx | hx
    · have := projectile_step_keep_sub E ops delta pr hx
      simp at this
      simp [this]
    · exact List.mem_cons_of_mem _ (projectile_fold_keep_sub E ops delta t hx)


/-- A scan step on an expired projectile whose target is still present
records the hit and keeps nothing. -/
theorem projectile_step_expired (E : List (Nat × Enemy)) (ops : RealOps) (delta : ℚ)
    (acc : List (Nat × Projectile) × List Hit) (id : Nat) (p : Projectile) (e : Enemy)
    (hexp : p.lifetime - delta ≤ 0)
    (he : alookup E p.target_id = some e) :
    Game.projectile_step E ops delta acc (id, p) =
      (acc.1, acc.2 ++ [⟨p.target_id, p.damage, p.tower_type, e.x, e.y⟩]) := by
  obtain ⟨h1, h2, h3, h4⟩ := Projectile.update_expired ops delta
    ((alookup E p.target_id).map fun e => (e.x, e.y)) p hexp
  simp only [Game.projectile_step]
  set P := Projectile.update ops delta ((alookup E p.target_id).map fun e => (e.x, e.y)) p
    with hP
  rw [if_pos (Or.inl h1), h2, h3, h4, he]

theorem scan_hits_mem (E : List (Nat × Enemy)) (ops : RealOps) (delta : ℚ) :
    ∀ (projs : List (Nat × Projectile)) (id : Nat) (p : Projectile) (e : Enemy),
    (id, p) ∈ projs → p.lifetime - delta ≤ 0 → alookup E p.target_id = some e →
    (⟨p.target_id, p.damage, p.tower_type, e.x, e.y⟩ : Hit) ∈
      (projs.foldl (Game.projectile_step E ops delta) ([], [])).2
  | [], id, p, e, hmem, _, _ => by simp at hmem
  | pr :: t, id, p, e, hmem, hexp, he => by
    rw [List.foldl_cons, projectile_fold_decompose]
    simp only [List.mem_append]
    rcases List.mem_cons.1 hmem with heq | hmem2
    · left
      rw [← heq, projectile_step_expired E ops delta ([], []) id p e hexp he]
      simp
    · right
      exact scan_hits_mem E ops delta t id p e hmem2 hexp he

theorem scan_kept_ids (E : List (Nat × Enemy)) (ops : RealOps) (delta : ℚ) :
    ∀ (projs : List (Nat × Projectile)) (id : Nat) (p : Projectile) (e : Enemy),
    (projs.map Prod.fst).Nodup → (id, p) ∈ projs → p.lifetime - delta ≤ 0 →
    alookup E p.target_id = some e →
    id ∉ ((projs.foldl (Game.projectile_step E ops delta) ([], [])).1.map Prod.fst)
  | [], id, p, e, _, hmem, _, _ => by simp at hmem
  | pr :: t, id, p, e, hnd, hmem, hexp, he => by
    intro hid
    rw [List.foldl_cons, projectile_fold_decompose] at hid
    simp only [List.map_append, List.mem_append] at hid
    rw [List.map_cons, List.nodup_cons] at hnd
    rcases List.mem_cons.1 hmem with heq | hmem2
    · rcases hid with hid | hid
      · rw [← heq, projectile_step_expired E ops delta ([], []) id p e hexp he] at hid
        simp at hid
      · have hin : id ∈ t.map Prod.fst := projectile_fold_keep_sub E ops delta t hid
        have : pr.1 = id := by rw [← heq]
        exact hnd.1 (this ▸ hin)
    · rcases hid with hid | hid
      · have := projectile_step_keep_sub E ops delta pr hid
        simp at this
        have hin : id ∈ t.map Prod.fst := List.mem_map_of_mem Prod.fst hmem2
        exact hnd.1 (this ▸ hin)
      · exact scan_kept_ids E ops delta t id p e hnd.2 hmem2 hexp he hid

/-- `apply_damage` leaves the projectile map untouched, hence so does the
damage fold. -/
theorem damage_fold_projectiles :
    ∀ (hits : List Hit) (g0 : Game),
    (hits.foldl (fun acc h => Game.apply_damage h acc) g0).projectiles = g0.projectiles
  | [], g0 => rfl
  | h :: t, g0 => by
    rw [List.foldl_cons, damage_fold_projectiles t _]
    rfl

/-- C2, amended: when a projectile's lifetime expires — even with its
straight-line distance to its aim point at or above the hit threshold — the
projectile is removed, but if its target enemy still exists a hit carrying the
projectile's full damage against that target is recorded by the scan (and then
applied in the damage phase); expiry is a clean miss only when the target is
already gone. -/
theorem C2_expiry_still_hits_live_target (ops : RealOps) (delta : ℚ) (g : Game)
    (id : Nat) (p : Projectile) (e : Enemy)
    (hmem : (id, p) ∈ g.projectiles)
    (hnd : (g.projectiles.map Prod.fst).Nodup)
    (hexp : p.lifetime - delta ≤ 0)
    (he : alookup g.state.enemies p.target_id = some e) :
    (⟨p.target_id, p.damage, p.tower_type, e.x, e.y⟩ : Hit) ∈
        (g.scan_projectiles ops delta).2 ∧
      id ∉ (Game.update_projectiles ops delta g).projectiles.map Prod.fst := by
  constructor
  · exact scan_hits_mem g.state.enemies ops delta g.projectiles id p e hmem hexp he
  · have hproj : (Game.update_projectiles ops delta g).projectiles =
        (g.scan_projectiles ops delta).1 := by
      unfold Game.update_projectiles
      rw [damage_fold_projectiles]
    rw [hproj]
    exact scan_kept_ids g.state.enemies ops delta g.projectiles id p e hnd hmem hexp he

/-- Witness for the amended C2 at the concrete game of the counterexample. -/
theorem C2_expiry_still_hits_live_target_witness :
    (⟨c2Projectile.target_id, c2Projectile.damage, c2Projectile.tower_type,
        c2Enemy.x, c2Enemy.y⟩ : Hit) ∈ (c2Game.scan_projectiles ops0 1).2 ∧
      7 ∉ (Game.update_projectiles ops0 1 c2Game).projectiles.map Prod.fst :=
  C2_expiry_still_hits_live_target ops0 1 c2Game 7 c2Projectile c2Enemy
    (by simp [c2Game]) (by simp [c2Game]) (by norm_num [c2Projectile]) (by rfl)

/-! ### Claim C10: no dead enemies survive a tick -/

theorem Enemy.updateSlow_health (delta : ℚ) (e : Enemy) :
    (Enemy.updateSlow delta e).health = e.health := by
  unfold Enemy.updateSlow
  dsimp only
  split_ifs <;> rfl

/-- `Enemy::update` never changes health. -/
theorem Enemy.update_health (ops : RealOps) (delta : ℚ) (e0 : Enemy) :
    (Enemy.update ops delta e0).2.health = e0.health := by
  unfold Enemy.update
  try dsimp only
  rw [← Enemy.updateSlow_health delta e0]
  set e1 := Enemy.updateSlow delta e0 with he1
  split
  · try dsimp only
    split
    · rfl
    · rfl
  · rfl

/-- After `apply_damage` every remaining enemy is alive (the death sweep
filters the enemy map by `is_alive`). -/
theorem apply_damage_all_alive (hit : Hit) (g : Game) :
    ∀ pr ∈ (Game.apply_damage hit g).state.enemies, pr.2.is_alive = true := by
  intro pr hpr
  simp only [Game.apply_damage] at hpr
  exact (List.mem_filter.1 hpr).2

/-- The damage fold leaves only live enemies, provided they were all alive
beforehand (unconditionally so as soon as one hit is applied). -/
theorem damage_fold_all_alive :
    ∀ (hits : List Hit) (g0 : Game),
    (∀ pr ∈ g0.state.enemies, pr.2.is_alive = true) →
    ∀ pr ∈ (hits.foldl (fun acc h => Game.apply_damage h acc) g0).state.enemies,
      pr.2.is_alive = true
  | [], g0, h => h
  | hit :: t, g0, _ => by
    rw [List.foldl_cons]
    exact damage_fold_all_alive t (Game.apply_damage hit g0) (apply_damage_all_alive hit g0)

theorem update_towers_enemies (ops : RealOps) (delta : ℚ) (g : Game) :
    (Game.update_towers ops delta g).state.enemies = g.state.enemies := rfl

theorem update_projectiles_all_alive (ops : RealOps) (delta : ℚ) (g : Game)
    (h : ∀ pr ∈ g.state.enemies, pr.2.is_alive = true) :
    ∀ pr ∈ (Game.update_projectiles ops delta g).state.enemies, pr.2.is_alive = true := by
  unfold Game.update_projectiles
  exact damage_fold_all_alive _ _ h

theorem update_enemies_health (ops : RealOps) (delta : ℚ) (g : Game)
    (h : ∀ pr ∈ g.state.enemies, 0 < pr.2.health) :
    ∀ pr ∈ (Game.update_enemies ops delta g).state.enemies, 0 < pr.2.health := by
  intro pr hpr
  simp only [Game.update_enemies, List.mem_map, List.mem_filter] at hpr
  obtain ⟨q, ⟨⟨pr0, hpr0, rfl⟩, -⟩, rfl⟩ := hpr
  show 0 < (Enemy.update ops delta pr0.2).2.health
  rw [Enemy.update_health]
  exact h pr0 hpr0

theorem update_effects_enemies (delta : ℚ) (g : Game) :
    (Game.update_effects delta g).state.enemies = g.state.enemies := rfl

theorem alive_iff_pos_health (e : Enemy) : e.is_alive = true ↔ 0 < e.health := by
  unfold Enemy.is_alive
  exact decide_eq_true_iff

/-- C10: after every complete `Game::update(delta)` call, every enemy
remaining in the enemy map has health strictly greater than zero; moreover
`apply_damage` removes exactly the dead enemies and grants 10 gold per removed
enemy within the same damage-application phase. -/
theorem C10_enemies_alive_after_update (ops : RealOps) (delta : ℚ) (g : Game)
    (h : ∀ pr ∈ g.state.enemies, 0 < pr.2.health) :
    (∀ pr ∈ (Game.update ops delta g).state.enemies, 0 < pr.2.health) ∧
    (∀ (hit : Hit) (g' : Game),
      (Game.apply_damage hit g').state.enemies =
        (Game.apply_damage_enemies hit.enemy_id hit.damage hit.tower_type hit.x hit.y
          g'.state.enemies).filter (fun pr => pr.2.is_alive) ∧
      (Game.apply_damage hit g').state.gold =
        g'.state.gold + 10 * ((((Game.apply_damage_enemies hit.enemy_id hit.damage
          hit.tower_type hit.x hit.y g'.state.enemies).filter
            (fun pr => !pr.2.is_alive)).length : Int))) := by
  constructor
  · unfold Game.update
    split
    · exact h
    · intro pr hpr
      rw [update_effects_enemies] at hpr
      refine update_enemies_health ops delta _ ?_ pr hpr
      intro q hq
      rw [← alive_iff_pos_health]
      refine update_projectiles_all_alive ops delta _ ?_ q hq
      intro r hr
      rw [update_towers_enemies] at hr
      rw [alive_iff_pos_health]
      exact h r hr
  · intro hit g'
    exact ⟨rfl, rfl⟩

/-- Witness for C10 on a concrete game with one live enemy. -/
theorem C10_enemies_alive_after_update_witness :
    (∀ pr ∈ (Game.update ops0 1 c2Game).state.enemies, 0 < pr.2.health) ∧
    (∀ (hit : Hit) (g' : Game),
      (Game.apply_damage hit g').state.enemies =
        (Game.apply_damage_enemies hit.enemy_id hit.damage hit.tower_type hit.x hit.y
          g'.state.enemies).filter (fun pr => pr.2.is_alive) ∧
      (Game.apply_damage hit g').state.gold =
        g'.state.gold + 10 * ((((Game.apply_damage_enemies hit.enemy_id hit.damage
          hit.tower_type hit.x hit.y g'.state.enemies).filter
            (fun pr => !pr.2.is_alive)).length : Int))) :=
  C10_enemies_alive_after_update ops0 1 c2Game
    (by
      intro pr hpr
      simp [c2Game, c2Enemy] at hpr
      subst hpr
      decide)

/-! ### Claim C7: tower-occupancy / walkability invariant -/

/-- Number of towers occupying cell `p`. -/
def TowersAt (st : GameState) (p : Position) : Nat :=
  (st.towers.filter fun pr => decide (pr.2.position = p)).length

/-- Game states reachable from `GameState::new` through the public operations
(tower placement, enemy spawning, clearing, and ticks). -/
inductive Reachable : Game → Prop
  | init : Reachable Game.new
  | place (g : Game) (tt : TowerType) (pos : Position) :
      Reachable g → Reachable { g with state := (GameState.place_tower tt pos g.state).2 }
  | spawn (g : Game) :
      Reachable g → Reachable { g with state := (GameState.spawn_enemy g.state).2 }
  | clear (g : Game) :
      Reachable g → Reachable { g with state := GameState.clear_all g.state }
  | tick (g : Game) (ops : RealOps) (delta : ℚ) :
      Reachable g → Reachable (Game.update ops delta g)

/-- The strengthened inductive invariant: walkable in-bounds cells carry no
tower, unwalkable in-bounds cells carry exactly one. -/
def TowerGridInv (st : GameState) : Prop :=
  ∀ p : Position, st.grid.inBounds p →
    (st.grid.is_walkable p = true → TowersAt st p = 0) ∧
    (st.grid.is_walkable p = false → TowersAt st p = 1)

theorem towersAt_map_position (l l' : List (Nat × Tower))
    (h : l.map (fun pr => pr.2.position) = l'.map (fun pr => pr.2.position)) (p : Position) :
    (l.filter fun pr => decide (pr.2.position = p)).length =
      (l'.filter fun pr => decide (pr.2.position = p)).length := by
  have key : ∀ (m : List (Nat × Tower)),
      (m.filter fun pr => decide (pr.2.position = p)).length =
        ((m.map fun pr => pr.2.position).filter fun q => decide (q = p)).length := by
    intro m
    induction m with
    | nil => rfl
    | cons e t ih =>
      by_cases he : e.2.position = p
      · simp [List.filter_cons, he, ih]
      · simp [List.filter_cons, he, ih]
  rw [key l, key l', h]

theorem towersAt_eq_zero_iff (st : GameState) (p : Position) :
    TowersAt st p = 0 ↔ p ∉ st.towers.map (fun pr => pr.2.position) := by
  unfold TowersAt
  rw [List.length_eq_zero, List.filter_eq_nil_iff]
  constructor
  · intro h hm
    obtain ⟨pr, hpr, hpos⟩ := List.mem_map.1 hm
    have h2 := h pr hpr
    simp at h2
    exact h2 hpos
  · intro h pr hpr hdec
    simp at hdec
    exact h (List.mem_map.2 ⟨pr, hpr, hdec⟩)

/-- Cells not named in the fold keep their walkability. -/
theorem fold_set_true_not_mem : ∀ (ts : List (Nat × Tower)) (g0 : Grid) (p : Position),
    p ∉ ts.map (fun pr => pr.2.position) →
    (ts.foldl (fun gr pr => gr.set_walkable pr.2.position true) g0).is_walkable p =
      g0.is_walkable p
  | [], _, _, _ => rfl
  | pr :: t, g0, p, hm => by
    have h1 : pr.2.position ≠ p := by
      intro he
      exact hm (by rw [List.map_cons]; exact List.mem_cons.2 (Or.inl he.symm))
    have h2 : p ∉ t.map (fun pr => pr.2.position) := fun hc =>
      hm (by rw [List.map_cons]; exact List.mem_cons_of_mem _ hc)
    rw [List.foldl_cons, fold_set_true_not_mem t _ p h2, Grid.is_walkable_set,
      if_neg (fun he => h1 he.symm)]

/-- Cells named in the fold become walkable. -/
theorem fold_set_true_mem : ∀ (ts : List (Nat × Tower)) (g0 : Grid) (p : Position),
    p ∈ ts.map (fun pr => pr.2.position) → g0.inBounds p →
    (ts.foldl (fun gr pr => gr.set_walkable pr.2.position true) g0).is_walkable p = true
  | [], g0, p, hm, _ => by simp at hm
  | pr :: t, g0, p, hm, hb => by
    rw [List.foldl_cons]
    by_cases hp : p ∈ t.map (fun pr => pr.2.position)
    · exact fold_set_true_mem t _ p hp hb
    · have hpp : pr.2.position = p := by
        rw [List.map_cons] at hm
        rcases List.mem_cons.1 hm with hm1 | hm1
        · exact hm1.symm
        · exact absurd hm1 hp
      rw [fold_set_true_not_mem t _ p hp, Grid.is_walkable_set, if_pos hpp.symm, if_pos hb]

theorem fold_set_true_inBounds (ts : List (Nat × Tower)) (g0 : Grid) (p : Position) :
    (ts.foldl (fun gr pr => gr.set_walkable pr.2.position true) g0).inBounds p ↔
      g0.inBounds p := by
  induction ts generalizing g0 with
  | nil => exact Iff.rfl
  | cons e t ih => rw [List.foldl_cons]; exact ih _

/-- `Tower::update` (cooldown decay) keeps the position. -/
theorem Tower.update_position (delta : ℚ) (t : Tower) :
    (Tower.update delta t).position = t.position := by
  unfold Tower.update
  split <;> rfl

theorem aupdate_map_position (m : List (Nat × Tower)) (k : Nat) (f : Tower → Tower)
    (hf : ∀ t, (f t).position = t.position) :
    (aupdate m k f).map (fun pr => pr.2.position) = m.map (fun pr => pr.2.position) := by
  unfold aupdate
  rw [List.map_map]
  apply List.map_congr_left
  intro e _
  by_cases he : e.1 = k
  · simp [he, hf]
  · simp [he]

theorem tower_fire_step_posmap (ops : RealOps) (g : Game)
    (acc : List (Nat × Tower) × List (Nat × Projectile) × Nat × List MuzzleFlash)
    (td : Nat × TowerType × ℚ × ℚ × Bool) :
    ((Game.tower_fire_step ops g acc td).1).map (fun pr => pr.2.position) =
      acc.1.map (fun pr => pr.2.position) := by
  obtain ⟨towers, projs, npid, flashes⟩ := acc
  obtain ⟨tid, tt, tx, ty, cs⟩ := td
  simp only [Game.tower_fire_step]
  split
  · cases g.find_target_for_tower_at tx ty tt with
    | some target =>
      simp only
      exact aupdate_map_position _ _ _ (fun t => rfl)
    | none =>
      simp only
      exact aupdate_map_position _ _ _ (fun t => rfl)
  · rfl

theorem tower_fire_fold_posmap (ops : RealOps) (g : Game) :
    ∀ (tds : List (Nat × TowerType × ℚ × ℚ × Bool))
      (acc : List (Nat × Tower) × List (Nat × Projectile) × Nat × List MuzzleFlash),
    ((tds.foldl (Game.tower_fire_step ops g) acc).1).map (fun pr => pr.2.position) =
      acc.1.map (fun pr => pr.2.position)
  | [], acc => rfl
  | td :: t, acc => by
    rw [List.foldl_cons, tower_fire_fold_posmap ops g t _, tower_fire_step_posmap]

theorem update_towers_posmap (ops : RealOps) (delta : ℚ) (g : Game) :
    ((Game.update_towers ops delta g).state.towers).map (fun pr => pr.2.position) =
      (g.state.towers).map (fun pr => pr.2.position) := by
  unfold Game.update_towers
  simp only
  rw [tower_fire_fold_posmap]
  rw [List.map_map]
  apply List.map_congr_left
  intro e _
  simp [Tower.update_position]

theorem update_towers_grid (ops : RealOps) (delta : ℚ) (g : Game) :
    (Game.update_towers ops delta g).state.grid = g.state.grid := rfl

theorem damage_fold_towers :
    ∀ (hits : List Hit) (g0 : Game),
    (hits.foldl (fun acc h => Game.apply_damage h acc) g0).state.towers = g0.state.towers
  | [], _ => rfl
  | h :: t, g0 => by
    rw [List.foldl_cons, damage_fold_towers t _]
    rfl

theorem damage_fold_grid :
    ∀ (hits : List Hit) (g0 : Game),
    (hits.foldl (fun acc h => Game.apply_damage h acc) g0).state.grid = g0.state.grid
  | [], _ => rfl
  | h :: t, g0 => by
    rw [List.foldl_cons, damage_fold_grid t _]
    rfl

theorem update_projectiles_towers (ops : RealOps) (delta : ℚ) (g : Game) :
    (Game.update_projectiles ops delta g).state.towers = g.state.towers := by
  unfold Game.update_projectiles
  rw [damage_fold_towers]

theorem update_projectiles_grid (ops : RealOps) (delta : ℚ) (g : Game) :
    (Game.update_projectiles ops delta g).state.grid = g.state.grid := by
  unfold Game.update_projectiles
  rw [damage_fold_grid]

theorem update_enemies_towers (ops : RealOps) (delta : ℚ) (g : Game) :
    (Game.update_enemies ops delta g).state.towers = g.state.towers := rfl

theorem update_enemies_grid (ops : RealOps) (delta : ℚ) (g : Game) :
    (Game.update_enemies ops delta g).state.grid = g.state.grid := rfl

theorem update_effects_towers (delta : ℚ) (g : Game) :
    (Game.update_effects delta g).state.towers = g.state.towers := rfl

theorem update_effects_grid (delta : ℚ) (g : Game) :
    (Game.update_effects delta g).state.grid = g.state.grid := rfl

theorem game_update_posmap (ops : RealOps) (delta : ℚ) (g : Game) :
    ((Game.update ops delta g).state.towers).map (fun pr => pr.2.position) =
      (g.state.towers).map (fun pr => pr.2.position) := by
  unfold Game.update
  split
  · rfl
  · rw [update_effects_towers, update_enemies_towers, update_projectiles_towers,
      update_towers_posmap]

theorem game_update_grid (ops : RealOps) (delta : ℚ) (g : Game) :
    (Game.update ops delta g).state.grid = g.state.grid := by
  unfold Game.update
  split
  · rfl
  · rw [update_effects_grid, update_enemies_grid, update_projectiles_grid,
      update_towers_grid]

theorem spawn_enemy_towers (st : GameState) :
    (GameState.spawn_enemy st).2.towers = st.towers := by
  unfold GameState.spawn_enemy
  cases Enemy.new st.next_enemy_id st.spawn_point st.goal_point st.grid <;> rfl

theorem spawn_enemy_grid (st : GameState) :
    (GameState.spawn_enemy st).2.grid = st.grid := by
  unfold GameState.spawn_enemy
  cases Enemy.new st.next_enemy_id st.spawn_point st.goal_point st.grid <;> rfl

/-- `place_tower` on success: the new tower is appended and its cell blocked
(the enemy rerouting leaves towers and grid alone). -/
theorem place_tower_success (st : GameState) (tt : TowerType) (pos : Position)
    (hg : ¬ st.gold < tt.cost) (hw : ¬ st.grid.is_walkable pos = false) :
    (GameState.place_tower tt pos st).2.towers =
        st.towers ++ [(st.next_tower_id, Tower.new st.next_tower_id tt pos)] ∧
      (GameState.place_tower tt pos st).2.grid = st.grid.set_walkable pos false := by
  unfold GameState.place_tower
  rw [if_neg hg, if_neg hw]
  exact ⟨rfl, rfl⟩

theorem grid_new_walkable {w h : Int} {p : Position} (hb : (Grid.new w h).inBounds p) :
    (Grid.new w h).is_walkable p = true := by
  rw [Grid.is_walkable_eq_true_of_inBounds hb]
  rfl

/-- The inductive invariant holds in every reachable state. -/
theorem reachable_towerGridInv {g : Game} (h : Reachable g) : TowerGridInv g.state := by
  induction h with
  | init =>
    intro p hp
    have hw1 : Game.new.state.grid.is_walkable p = true := grid_new_walkable hp
    constructor
    · intro _
      rfl
    · intro hw
      rw [hw1] at hw
      exact absurd hw (by simp)
  | place g0 tt pos hr ih =>
    by_cases hg : g0.state.gold < tt.cost
    · intro p hp
      have hst : (GameState.place_tower tt pos g0.state).2 = g0.state := by
        unfold GameState.place_tower
        rw [if_pos hg]
      rw [hst] at hp ⊢
      exact ih p hp
    · by_cases hw : g0.state.grid.is_walkable pos = false
      · intro p hp
        have hst : (GameState.place_tower tt pos g0.state).2 = g0.state := by
          unfold GameState.place_tower
          rw [if_neg hg, if_pos hw]
        rw [hst] at hp ⊢
        exact ih p hp
      · -- successful placement
        obtain ⟨htow, hgrid⟩ := place_tower_success g0.state tt pos hg hw
        have hwt : g0.state.grid.is_walkable pos = true := by
          cases hv : g0.state.grid.is_walkable pos with
          | false => exact absurd hv hw
          | true => rfl
        have hposB : g0.state.grid.inBounds pos := Grid.inBounds_of_is_walkable hwt
        intro p hp
        have hpB : g0.state.grid.inBounds p := by
          rw [hgrid] at hp
          exact hp
        have hcount : TowersAt (GameState.place_tower tt pos g0.state).2 p =
            TowersAt g0.state p + (if pos = p then 1 else 0) := by
          unfold TowersAt
          rw [htow, List.filter_append, List.length_append]
          by_cases hpe : pos = p
          · simp [Tower.new, hpe]
          · simp [Tower.new, hpe]
        rw [show ({ g0 with state := (GameState.place_tower tt pos g0.state).2 } : Game).state
            = (GameState.place_tower tt pos g0.state).2 from rfl]
        rw [hcount, hgrid, Grid.is_walkable_set]
        by_cases hpe : p = pos
        · subst hpe
          rw [if_pos rfl, if_pos hposB, if_pos rfl]
          constructor
          · intro hf
            exact absurd hf (by simp)
          · intro _
            rw [(ih p hpB).1 hwt]
        · rw [if_neg hpe, if_neg (fun he => hpe he.symm)]
          simp only [add_zero]
          exact ih p hpB
  | spawn g0 hr ih =>
    intro p hp
    rw [show ({ g0 with state := (GameState.spawn_enemy g0.state).2 } : Game).state
        = (GameState.spawn_enemy g0.state).2 from rfl] at hp ⊢
    have hgrid := spawn_enemy_grid g0.state
    have htow := spawn_enemy_towers g0.state
    rw [hgrid] at hp
    rw [hgrid]
    have hcount : ∀ q, TowersAt (GameState.spawn_enemy g0.state).2 q = TowersAt g0.state q := by
      intro q
      unfold TowersAt
      rw [htow]
    rw [hcount]
    exact ih p hp
  | clear g0 hr ih =>
    intro p hp
    rw [show ({ g0 with state := GameState.clear_all g0.state } : Game).state
        = GameState.clear_all g0.state from rfl] at hp ⊢
    have hpB : g0.state.grid.inBounds p := by
      have := (fold_set_true_inBounds g0.state.towers g0.state.grid p).1
      exact this hp
    have hwalk : (GameState.clear_all g0.state).grid.is_walkable p = true := by
      show (g0.state.towers.foldl (fun gr pr => gr.set_walkable pr.2.position true)
        g0.state.grid).is_walkable p = true
      cases hv : g0.state.grid.is_walkable p with
      | true =>
        have h0 : TowersAt g0.state p = 0 := (ih p hpB).1 hv
        rw [fold_set_true_not_mem _ _ _ ((towersAt_eq_zero_iff g0.state p).1 h0)]
        exact hv
      | false =>
        have h1 : TowersAt g0.state p = 1 := (ih p hpB).2 hv
        have hmem : p ∈ g0.state.towers.map (fun pr => pr.2.position) := by
          by_contra hc
          rw [(towersAt_eq_zero_iff g0.state p).2 hc] at h1
          exact absurd h1 (by simp)
        exact fold_set_true_mem _ _ _ hmem hpB
    constructor
    · intro _
      rfl
    · intro hf
      rw [hwalk] at hf
      exact absurd hf (by simp)
  | tick g0 ops delta hr ih =>
    intro p hp
    rw [game_update_grid] at hp ⊢
    have hcount : TowersAt (Game.update ops delta g0).state p = TowersAt g0.state p :=
      towersAt_map_position _ _ (game_update_posmap ops delta g0) p
    rw [hcount]
    exact ih p hp

/-- C7: in every game state reachable from `GameState::new` through the public
operations, an in-bounds cell is marked not-walkable iff exactly one tower in
the tower map occupies it. -/
theorem C7_not_walkable_iff_one_tower (g : Game) (h : Reachable g) (p : Position)
    (hp : g.state.grid.inBounds p) :
    g.state.grid.is_walkable p = false ↔ TowersAt g.state p = 1 := by
  have hinv := reachable_towerGridInv h p hp
  constructor
  · exact hinv.2
  · intro h1
    cases hv : g.state.grid.is_walkable p with
    | false => rfl
    | true =>
      rw [hinv.1 hv] at h1
      exact absurd h1 (by simp)

/-- Witness for C7 at the initial state and a concrete cell. -/
theorem C7_not_walkable_iff_one_tower_witness :
    Game.new.state.grid.is_walkable ⟨0, 0⟩ = false ↔ TowersAt Game.new.state ⟨0, 0⟩ = 1 :=
  C7_not_walkable_iff_one_tower Game.new Reachable.init ⟨0, 0⟩ (by decide)

end RustRush
